import Mathlib

/-!
Verification development for the sstable read path (`sstable/reader.go`).

Keys and values are modelled as natural numbers; the table's comparator is
the linear order on `Nat` (`cmp a b < 0` becomes `a < b`, and so on).  The
companion block iterator (`blockIter`, whose source file is not part of the
repository under verification; only its callers are) is modelled from the
spec as an ordered cursor over a list of decoded entries.  All code in
`reader.go` itself is translated definition by definition.
-/

namespace sstable

/-- `blockTrailerLen` from the table format: 1 type byte + 4 CRC bytes. -/
def blockTrailerLen : Nat := 5

/-- Compression type byte 0. -/
def noCompressionBlockType : Nat := 0

/-- Compression type byte 1. -/
def snappyCompressionBlockType : Nat := 1

/-- BlockHandle is the file offset and length of a block (`reader.go`). -/
structure BlockHandle where
  Offset : Nat := 0
  Length : Nat := 0
  deriving DecidableEq, Repr

/-- One step of `encoding/binary.Uvarint`: `x` is the accumulator, `s` the
shift, `i` the index of the byte being examined.  Returns the decoded value
and the byte count: positive on success, `0` when the buffer is exhausted
before a terminating byte, negative (`-(i+1)`) on 64-bit overflow.  The
accumulated value never exceeds `2^64 - 1` because overflow is detected
before the final shift, so plain `Nat` accumulation is exact. -/
def uvarintAux : List Nat → Nat → Nat → Nat → Nat × Int
  | [], _, _, _ => (0, 0)
  | b :: rest, x, s, i =>
    if i = 10 then (0, -(Int.ofNat (i + 1)))
    else if b < 128 then
      if i = 9 ∧ b > 1 then (0, -(Int.ofNat (i + 1)))
      else (x + b * 2 ^ s, Int.ofNat (i + 1))
    else uvarintAux rest (x + (b % 128) * 2 ^ s) (s + 7) (i + 1)

/-- Model of Go's `binary.Uvarint`. -/
def uvarint (buf : List Nat) : Nat × Int := uvarintAux buf 0 0 0

/-- `decodeBlockHandle` from `reader.go`.  `none` models a Go runtime panic:
when the first varint overflows, `binary.Uvarint` returns a negative byte
count `n` and the source slices `src[n:]`, which panics. -/
def decodeBlockHandle (src : List Nat) : Option (BlockHandle × Int) :=
  let p := uvarint src
  if p.2 < 0 then none
  else
    let q := uvarint (src.drop p.2.toNat)
    if p.2 = 0 ∨ q.2 = 0 then some (⟨0, 0⟩, 0)
    else some (⟨p.1, q.1⟩, p.2 + q.2)

/-- Modelled from the spec: the companion block iterator (`blockIter`) is a
black-box ordered cursor over the decoded entries of one block.  `entries`
are the `(userKey, value)` pairs in block order; `pos` is the cursor
position and `valid` the validity flag; `err` is the cursor's sticky error.
`offsets`, `numRestarts` and `size` expose the encoding facts used by the
compaction iterator: `offsets` holds, for each record, the block-local
offset just past that record (`nextOffset` when the cursor rests on it),
and `size` is the decompressed block length `len(data)`. -/
structure BIter where
  entries : List (Nat × Nat) := []
  pos : Nat := 0
  valid : Bool := false
  err : Option String := none
  offsets : List Nat := []
  numRestarts : Nat := 0
  size : Nat := 0
  deriving DecidableEq, Repr

namespace BIter

/-- Modelled from the spec: current entry under the cursor (`Key`/`Value`). -/
def Key (b : BIter) : Option (Nat × Nat) := b.entries[b.pos]?

/-- Modelled from the spec: `nextOffset` of the record under the cursor. -/
def nextOffset (b : BIter) : Nat := b.offsets.getD b.pos 0

/-- Modelled from the spec: position at the first entry. -/
def First (b : BIter) : Option (Nat × Nat) × BIter :=
  match b.entries[0]? with
  | some e => (some e, { b with pos := 0, valid := true })
  | none => (none, { b with pos := 0, valid := false })

/-- Modelled from the spec: position at the last entry. -/
def Last (b : BIter) : Option (Nat × Nat) × BIter :=
  if b.entries.isEmpty then (none, { b with pos := 0, valid := false })
  else (b.entries[b.entries.length - 1]?,
        { b with pos := b.entries.length - 1, valid := true })

/-- Modelled from the spec: advance the cursor one entry forward. -/
def Next (b : BIter) : Option (Nat × Nat) × BIter :=
  if b.valid then
    (b.entries[b.pos + 1]?,
     { b with pos := b.pos + 1, valid := decide (b.pos + 1 < b.entries.length) })
  else (none, b)

/-- Modelled from the spec: move the cursor one entry backward. -/
def Prev (b : BIter) : Option (Nat × Nat) × BIter :=
  if b.valid then
    if b.pos = 0 then (none, { b with valid := false })
    else (b.entries[b.pos - 1]?, { b with pos := b.pos - 1 })
  else (none, b)

/-- Modelled from the spec: position at the first entry whose key is `≥ k`. -/
def SeekGE (b : BIter) (k : Nat) : Option (Nat × Nat) × BIter :=
  match b.entries.findIdx? (fun e => decide (k ≤ e.1)) with
  | some p => (b.entries[p]?, { b with pos := p, valid := true })
  | none => (none, { b with pos := b.entries.length, valid := false })

/-- Modelled from the spec: position at the last entry whose key is `< k`. -/
def SeekLT (b : BIter) (k : Nat) : Option (Nat × Nat) × BIter :=
  let n := (b.entries.takeWhile (fun e => decide (e.1 < k))).length
  if n = 0 then (none, { b with pos := 0, valid := false })
  else (b.entries[n - 1]?, { b with pos := n - 1, valid := true })

/-- Modelled from the spec: force `Valid()` to return false (upper bound). -/
def invalidateUpper (b : BIter) : BIter := { b with valid := false }

/-- Modelled from the spec: force `Valid()` to return false (lower bound). -/
def invalidateLower (b : BIter) : BIter := { b with valid := false }

/-- Modelled from the spec: the cursor's `Error()` accessor. -/
def Error (b : BIter) : Option String := b.err

/-- Modelled from the spec: `Close()` releases the cache handle and returns
the cursor's error. -/
def Close (b : BIter) : Option String := b.err

end BIter

/-- One data block of the table together with the index entry pointing at
it: `sep` is the index separator key, `entries` the decoded records.
`bh`, `size`, `numRestarts` and `offsets` carry the on-disk encoding facts
used by the compaction iterator (see `BIter`). -/
structure BlockRec where
  sep : Nat
  entries : List (Nat × Nat)
  bh : BlockHandle := {}
  size : Nat := 0
  numRestarts : Nat := 0
  offsets : List Nat := []
  deriving DecidableEq, Repr

/-- The decoded index block of a table: entry `p` is the pair
`(separator of block p, p)`; the second component models the decoded
block handle, pointing at block `p` of the table. -/
def idxOf (T : List BlockRec) : List (Nat × Nat) :=
  T.enum.map (fun p => (p.2.sep, p.1))

/-- All decoded records of the table, in table order. -/
def allEntries (T : List BlockRec) : List (Nat × Nat) :=
  (T.map (fun b => b.entries)).flatten

/-- All user keys of the table, in table order. -/
def allKeys (T : List BlockRec) : List Nat :=
  (T.map (fun b => b.entries.map Prod.fst)).flatten

/-- Adjacent-block separator condition: each block's separator is
strictly less than the first key of the following block. -/
def sepChain : List BlockRec → Bool
  | a :: b :: rest =>
    ((b.entries.take 1).all fun e => decide (a.sep < e.1)) && sepChain (b :: rest)
  | _ => true

/-- Well-formed table (spec §3 invariants): every data block is nonempty
and internally sorted, every key of a block is at most the block's index
separator, the keys of the whole table are strictly increasing, and each
separator is strictly less than the first key of the following block. -/
def wfTable (T : List BlockRec) : Prop :=
  (∀ b ∈ T, b.entries ≠ []) ∧
  (∀ b ∈ T, b.entries.Pairwise (fun e f => e.1 < f.1)) ∧
  (∀ b ∈ T, ∀ e ∈ b.entries, e.1 ≤ b.sep) ∧
  (allKeys T).Pairwise (· < ·) ∧
  sepChain T = true

instance (T : List BlockRec) : Decidable (wfTable T) :=
  inferInstanceAs (Decidable
    ((∀ b ∈ T, b.entries ≠ []) ∧
     (∀ b ∈ T, b.entries.Pairwise (fun e f : Nat × Nat => e.1 < f.1)) ∧
     (∀ b ∈ T, ∀ e ∈ b.entries, e.1 ≤ b.sep) ∧
     (allKeys T).Pairwise (fun a b : Nat => a < b) ∧
     sepChain T = true))

/-- Model of a `vfs.File`: the only operation the read path uses on the
reader's stored handle is `Close`, whose result is `closeErr`. -/
structure VFile where
  closeErr : Option String := none
  deriving DecidableEq, Repr

/-- Model of `Reader` (`reader.go`).  The table's data blocks and index are
carried in decoded form (`table`); `tFilter` models the configured
`tableFilter` together with the result of `readFilter`: `none` when no
filter is configured, `some (.error e)` when reading the filter block
fails, and `some (.ok f)` where `f p` is
`tableFilter.mayContain(filterBytes, p)`.  `fileCloses` counts how many
times `file.Close()` has been called on the underlying file. -/
structure Reader where
  file : Option VFile := none
  fileCloses : Nat := 0
  table : List BlockRec := []
  tFilter : Option (Except String (Nat → Bool)) := none
  err : Option String := none

/-- Model of `Iterator` (`reader.go`): the two-level iterator.  `table` and
`tFilter` stand for the fields reached through the `reader` pointer. -/
structure Iterator where
  lower : Option Nat := none
  upper : Option Nat := none
  blockLower : Option Nat := none
  blockUpper : Option Nat := none
  table : List BlockRec := []
  tFilter : Option (Except String (Nat → Bool)) := none
  index : BIter := {}
  data : BIter := {}
  dataBH : BlockHandle := {}
  err : Option String := none

namespace Iterator

/-- `Iterator.Init`: resets the iterator, adopts the reader's sticky error,
and (on success) reads and initializes the index block cursor.  The Go
function also returns `i.err`; callers read it from the iterator. -/
def Init (r : Reader) (lower upper : Option Nat) : Iterator :=
  let i : Iterator :=
    { lower := lower, upper := upper, table := r.table, tFilter := r.tFilter,
      err := r.err }
  match i.err with
  | some _ => i
  | none => { i with index := { entries := idxOf r.table } }

/-- `Iterator.initBounds`: trims the global bounds for the current block.
Returns immediately when no global bound is set; otherwise suppresses
`blockLower` when the block's first key is strictly above `lower`, and
`blockUpper` when the current index separator is strictly below `upper`. -/
def initBounds (i : Iterator) : Iterator :=
  match i.lower, i.upper with
  | none, none => i
  | _, _ =>
    let p :=
      match i.lower with
      | none => (i, (none : Option Nat))
      | some l =>
        let f := i.data.First
        let i := { i with data := f.2 }
        match f.1 with
        | some e => if l < e.1 then (i, none) else (i, some l)
        | none => (i, some l)
    let i := p.1
    let bu :=
      match i.upper with
      | none => (none : Option Nat)
      | some u =>
        match i.index.Key with
        | some s => if u > s.1 then none else some u
        | none => some u
    { i with blockLower := p.2, blockUpper := bu }

/-- `Iterator.loadBlock`: loads the block at the current index position and
leaves `i.data` unpositioned.  When the index cursor is invalid it adopts
the index cursor's error (which may be `none` for plain exhaustion) and
clears the data cursor; a dangling decoded handle is the model of a
corrupt index entry. -/
def loadBlock (i : Iterator) : Bool × Iterator :=
  if i.index.valid then
    match i.index.Key with
    | none => (false, { i with err := some "pebble/table: corrupt index entry" })
    | some v =>
      match i.table[v.2]? with
      | none => (false, { i with err := some "pebble/table: corrupt index entry" })
      | some blk =>
        let d : BIter :=
          { entries := blk.entries, pos := 0, valid := false, err := none,
            offsets := blk.offsets, numRestarts := blk.numRestarts,
            size := blk.size }
        (true, initBounds { i with data := d, dataBH := blk.bh })
  else
    let d : BIter :=
      { i.data with entries := [], pos := 0, valid := false, offsets := [], size := 0 }
    (false, { i with err := i.index.err, data := d })

/-- `Iterator.seekBlock`: loads the block at the current index position and
positions the data cursor at the first key `≥ key` (used by `Reader.get`). -/
def seekBlock (i : Iterator) (key : Nat) : Bool × Iterator :=
  if i.index.valid then
    match i.index.Key with
    | none => (false, { i with err := some "pebble/table: corrupt index entry" })
    | some v =>
      match i.table[v.2]? with
      | none => (false, { i with err := some "pebble/table: corrupt index entry" })
      | some blk =>
        let d : BIter :=
          { entries := blk.entries, pos := 0, valid := false, err := none,
            offsets := blk.offsets, numRestarts := blk.numRestarts,
            size := blk.size }
        let i := initBounds { i with data := d, dataBH := blk.bh }
        (true, { i with data := (i.data.SeekGE key).2 })
  else
    (false, { i with err := i.index.err })

/-- The upper-bound check repeated at the tail of `SeekGE`, `SeekPrefixGE`,
`First` and `Next`: when `blockUpper` applies and the candidate key is
`≥ blockUpper`, invalidate the data cursor and yield nothing. -/
def checkUpper (i : Iterator) (e : Nat × Nat) : Option (Nat × Nat) × Iterator :=
  match i.blockUpper with
  | some u =>
    if e.1 ≥ u then (none, { i with data := i.data.invalidateUpper })
    else (some e, i)
  | none => (some e, i)

/-- The lower-bound check repeated at the tail of `SeekLT`, `Last` and
`Prev`. -/
def checkLower (i : Iterator) (e : Nat × Nat) : Option (Nat × Nat) × Iterator :=
  match i.blockLower with
  | some l =>
    if e.1 < l then (none, { i with data := i.data.invalidateLower })
    else (some e, i)
  | none => (some e, i)

/-- The body shared by `SeekGE` and the fall-through of `SeekPrefixGE`
(the Go source repeats these lines verbatim in both methods): seek the
index, load the block, seek inside it, and apply the upper-bound check. -/
def seekGEcore (i : Iterator) (key : Nat) : Option (Nat × Nat) × Iterator :=
  let s := i.index.SeekGE key
  let i := { i with index := s.2 }
  match s.1 with
  | none => (none, i)
  | some _ =>
    match i.loadBlock with
    | (false, i) => (none, i)
    | (true, i) =>
      let d := i.data.SeekGE key
      let i := { i with data := d.2 }
      match d.1 with
      | none => (none, i)
      | some e => checkUpper i e

/-- `Iterator.SeekGE`. -/
def SeekGE (i : Iterator) (key : Nat) : Option (Nat × Nat) × Iterator :=
  match i.err with
  | some _ => (none, i)
  | none => i.seekGEcore key

/-- `Iterator.SeekPrefixGE`: consults the bloom filter on the prefix before
falling through to `SeekGE` semantics. -/
def SeekPrefixGE (i : Iterator) (pfx key : Nat) : Option (Nat × Nat) × Iterator :=
  match i.err with
  | some _ => (none, i)
  | none =>
    match i.tFilter with
    | some (.error _) => (none, i)
    | some (.ok mayContain) =>
      if !mayContain pfx then (none, { i with data := i.data.invalidateUpper })
      else i.seekGEcore key
    | none => i.seekGEcore key

/-- The body of `SeekLT` past the index positioning: loads the block at
the current index position and seeks backward inside it; when the query
falls at or before the block's first key, steps the index back and takes
the previous block's last entry. -/
def seekLTcore (i : Iterator) (key : Nat) : Option (Nat × Nat) × Iterator :=
  match i.loadBlock with
  | (false, i) => (none, i)
  | (true, i) =>
    let d := i.data.SeekLT key
    let i := { i with data := d.2 }
    match d.1 with
    | some e => checkLower i e
    | none =>
      let p := i.index.Prev
      let i := { i with index := p.2 }
      match p.1 with
      | none => (none, i)
      | some _ =>
        match i.loadBlock with
        | (false, i) => (none, i)
        | (true, i) =>
          let l := i.data.Last
          let i := { i with data := l.2 }
          match l.1 with
          | none => (none, i)
          | some e => checkLower i e

/-- `Iterator.SeekLT`: seeks the index (falling back to the last index
entry when the seek runs off the end), then runs `seekLTcore`. -/
def SeekLT (i : Iterator) (key : Nat) : Option (Nat × Nat) × Iterator :=
  match i.err with
  | some _ => (none, i)
  | none =>
    let s := i.index.SeekGE key
    let i := { i with index := s.2 }
    let i := match s.1 with
      | none => { i with index := i.index.Last.2 }
      | some _ => i
    i.seekLTcore key

/-- `Iterator.First`. -/
def First (i : Iterator) : Option (Nat × Nat) × Iterator :=
  match i.err with
  | some _ => (none, i)
  | none =>
    let f := i.index.First
    let i := { i with index := f.2 }
    match f.1 with
    | none => (none, i)
    | some _ =>
      match i.loadBlock with
      | (false, i) => (none, i)
      | (true, i) =>
        let d := i.data.First
        let i := { i with data := d.2 }
        match d.1 with
        | none => (none, i)
        | some e => checkUpper i e

/-- `Iterator.Last`. -/
def Last (i : Iterator) : Option (Nat × Nat) × Iterator :=
  match i.err with
  | some _ => (none, i)
  | none =>
    let f := i.index.Last
    let i := { i with index := f.2 }
    match f.1 with
    | none => (none, i)
    | some _ =>
      match i.loadBlock with
      | (false, i) => (none, i)
      | (true, i) =>
        let d := i.data.Last
        let i := { i with data := d.2 }
        match d.1 with
        | none => (none, i)
        | some e => checkLower i e

/-- The block-boundary loop of `Iterator.Next`: promote `data.err`,
advance the index, load the next block, and return its first entry after
the upper-bound check; loops only past blocks that fail to load.  The fuel
argument bounds the iterations; `Next` passes one more than the number of
index entries, which the loop can never exhaust because every iteration
advances the index cursor. -/
def nextLoop : Nat → Iterator → Option (Nat × Nat) × Iterator
  | 0, i => (none, i)
  | fuel + 1, i =>
    match i.data.err with
    | some e => (none, { i with err := some e })
    | none =>
      let n := i.index.Next
      let i := { i with index := n.2 }
      match n.1 with
      | none => (none, i)
      | some _ =>
        match i.loadBlock with
        | (true, i) =>
          let d := i.data.First
          let i := { i with data := d.2 }
          match d.1 with
          | none => (none, i)
          | some e => checkUpper i e
        | (false, i) => nextLoop fuel i

/-- `Iterator.Next`. -/
def Next (i : Iterator) : Option (Nat × Nat) × Iterator :=
  match i.err with
  | some _ => (none, i)
  | none =>
    let n := i.data.Next
    let i := { i with data := n.2 }
    match n.1 with
    | some e => checkUpper i e
    | none => nextLoop (i.index.entries.length + 1) i

/-- The block-boundary loop of `Iterator.Prev` (mirror of `nextLoop`). -/
def prevLoop : Nat → Iterator → Option (Nat × Nat) × Iterator
  | 0, i => (none, i)
  | fuel + 1, i =>
    match i.data.err with
    | some e => (none, { i with err := some e })
    | none =>
      let p := i.index.Prev
      let i := { i with index := p.2 }
      match p.1 with
      | none => (none, i)
      | some _ =>
        match i.loadBlock with
        | (true, i) =>
          let d := i.data.Last
          let i := { i with data := d.2 }
          match d.1 with
          | none => (none, i)
          | some e => checkLower i e
        | (false, i) => prevLoop fuel i

/-- `Iterator.Prev`. -/
def Prev (i : Iterator) : Option (Nat × Nat) × Iterator :=
  match i.err with
  | some _ => (none, i)
  | none =>
    let p := i.data.Prev
    let i := { i with data := p.2 }
    match p.1 with
    | some e => checkLower i e
    | none => prevLoop (i.index.entries.length + 1) i

/-- `Iterator.Valid`. -/
def Valid (i : Iterator) : Bool := i.data.valid

/-- `Iterator.Error`: the data cursor's error takes precedence. -/
def Error (i : Iterator) : Option String :=
  match i.data.Error with
  | some e => some e
  | none => i.err

/-- `Iterator.Close` (close hook absent): closes the data cursor, whose
error takes precedence, and otherwise returns the iterator's sticky
error. -/
def Close (i : Iterator) : Option String :=
  match i.data.Close with
  | some e => some e
  | none => i.err

/-- `Iterator.SetBounds`: replaces only the global bounds. -/
def SetBounds (i : Iterator) (lower upper : Option Nat) : Iterator :=
  { i with lower := lower, upper := upper }

end Iterator

namespace Reader

/-- `Reader.Close`: closes the underlying file (at most once) and leaves
the sticky "reader is closed" error behind. -/
def Close (r : Reader) : Option String × Reader :=
  match r.err with
  | some e =>
    match r.file with
    | some _ => (some e, { r with file := none, fileCloses := r.fileCloses + 1 })
    | none => (some e, r)
  | none =>
    match r.file with
    | some f =>
      let r := { r with err := f.closeErr, file := none,
                        fileCloses := r.fileCloses + 1 }
      match r.err with
      | some e => (some e, r)
      | none => (none, { r with err := some "pebble/table: reader is closed" })
    | none => (none, { r with err := some "pebble/table: reader is closed" })

/-- `Reader.NewIter`: builds an iterator, discarding `Init`'s error result
(the error is left on the iterator itself). -/
def NewIter (r : Reader) (lower upper : Option Nat) : Iterator :=
  Iterator.Init r lower upper

/-- The body of `Reader.get` past the filter check: init an unbounded
iterator, seek the index, seek inside the block, and compare the landed
key (factored out because Go uses early returns). -/
def getSeek (r : Reader) (key : Nat) : Except String Nat :=
  let i := Iterator.Init r none none
  let i :=
    match i.err with
    | none =>
      let s := i.index.SeekGE key
      let i := { i with index := s.2 }
      (i.seekBlock key).2
    | some _ => i
  let hit :=
    match i.Valid, i.data.Key with
    | true, some e => decide (key = e.1)
    | _, _ => false
  if hit then
    match i.data.Key, i.Close with
    | some e, none => Except.ok e.2
    | _, some e => Except.error e
    | none, none => Except.error "pebble: not found"
  else
    match i.Close with
    | some e => Except.error e
    | none => Except.error "pebble: not found"

/-- `Reader.get` (testing helper): sticky-error guard, bloom filter check
on the lookup key (the `split` function is modelled as absent, so the
lookup key is the key itself), then a seek and exact-match check. -/
def get (r : Reader) (key : Nat) : Except String Nat :=
  match r.err with
  | some e => Except.error e
  | none =>
    match r.tFilter with
    | some (.error e) => Except.error e
    | some (.ok mayContain) =>
      if !mayContain key then Except.error "pebble: not found"
      else getSeek r key
    | none => getSeek r key

end Reader

/-- The block organization of an sstable (`Layout`); only the data-block
handles are carried by the model. -/
structure Layout where
  Data : List BlockHandle := []
  deriving DecidableEq, Repr

/-- `Reader.Layout`: sticky-error guard, then the data-block handles read
off the (single-level) index. -/
def Reader.Layout (r : Reader) : Except String Layout :=
  match r.err with
  | some e => Except.error e
  | none => Except.ok { Data := r.table.map (fun b => b.bh) }

/-- Model of the block cache visible to `readBlock`: a map from file
offset to cached payload (one file, so `(dbNum, fileNum)` is dropped). -/
structure BCache where
  entries : List (Nat × List Nat) := []
  deriving DecidableEq, Repr

/-- `cache.Get`. -/
def BCache.Get (c : BCache) (off : Nat) : Option (List Nat) :=
  (c.entries.find? (fun p => p.1 == off)).map Prod.snd

/-- `cache.Set`: inserts a payload under the offset. -/
def BCache.Set (c : BCache) (off : Nat) (b : List Nat) : BCache :=
  { entries := (off, b) :: c.entries }

/-- `binary.LittleEndian.Uint32` over the first four bytes. -/
def le32 (l : List Nat) : Nat :=
  match l with
  | b0 :: b1 :: b2 :: b3 :: _ => b0 + 256 * (b1 + 256 * (b2 + 256 * b3))
  | _ => 0

/-- The raw bytes `ReadAt` places in the allocated buffer for a handle:
`length + 5` bytes of the file starting at the handle's offset.  The file
is modelled as a total byte function. -/
def readBuf (file : Nat → Nat) (bh : BlockHandle) : List Nat :=
  (List.range (bh.Length + blockTrailerLen)).map (fun j => file (bh.Offset + j) % 256)

/-- `Reader.readBlock`: on a cache hit return the cached payload;
otherwise read the buffer, verify the CRC32C stored in the trailer,
switch on the compression type byte, optionally transform, and insert the
payload into the cache.  The CRC function and the snappy decoder
(`DecodedLen` + `Decode`) are external components and appear as
parameters.  Returns the result together with the cache state after the
call. -/
def readBlock (crcFn : List Nat → Nat) (snappy : List Nat → Except String (List Nat))
    (transform : Option (List Nat → Except String (List Nat)))
    (file : Nat → Nat) (c : BCache) (bh : BlockHandle) :
    Except String (List Nat) × BCache :=
  match c.Get bh.Offset with
  | some b => (Except.ok b, c)
  | none =>
    let b := readBuf file bh
    let checksum0 := le32 (b.drop (bh.Length + 1))
    let checksum1 := crcFn (b.take (bh.Length + 1))
    if checksum0 ≠ checksum1 then
      (Except.error "pebble/table: invalid table (checksum mismatch)", c)
    else
      let typ := b.getD bh.Length 0
      let payload :=
        if typ = noCompressionBlockType then Except.ok (b.take bh.Length)
        else if typ = snappyCompressionBlockType then snappy (b.take bh.Length)
        else Except.error ("pebble/table: unknown block compression: " ++ toString typ)
      match payload with
      | Except.error e => (Except.error e, c)
      | Except.ok p =>
        match transform with
        | none => (Except.ok p, c.Set bh.Offset p)
        | some tr =>
          match tr p with
          | Except.error e => (Except.error e, c)
          | Except.ok p2 => (Except.ok p2, c.Set bh.Offset p2)

/-- Truncation to 64 bits: Go's `uint64` arithmetic. -/
def w64 (x : Nat) : Nat := x % 2 ^ 64

/-- Go's wrapping `uint64` subtraction `a - b`, for `a b < 2^64`. -/
def u64sub (a b : Nat) : Nat := (a + 2 ^ 64 - b) % 2 ^ 64

/-- `compactionIterator`: an `Iterator` plus the shared `*bytesIterated`
counter and the previous record's compressed offset. -/
structure compactionIterator where
  it : Iterator
  bytesIterated : Nat := 0
  prevOffset : Nat := 0

/-- `Reader.NewCompactionIter`: an unbounded iterator with accounting. -/
def Reader.NewCompactionIter (r : Reader) : compactionIterator :=
  { it := Iterator.Init r none none }

namespace compactionIterator

/-- `compactionIterator.First`: delegates to `Iterator.First`, then
charges the first record's prorated compressed offset (or the whole block
plus trailer when the block has a single record, or when the table is
empty). -/
def First (c : compactionIterator) : Option (Nat × Nat) × compactionIterator :=
  let f := c.it.First
  let it := f.2
  match f.1 with
  | none =>
    (none, { c with it := it,
                    bytesIterated := w64 (c.bytesIterated + w64 (blockTrailerLen + it.dataBH.Length)) })
  | some e =>
    let d := it.data
    let prev :=
      if d.nextOffset + 4 * (d.numRestarts + 1) = d.size then
        w64 (blockTrailerLen + it.dataBH.Length)
      else
        w64 (d.nextOffset * it.dataBH.Length) / d.size
    (some e, { it := it, bytesIterated := w64 (c.bytesIterated + prev), prevOffset := prev })

/-- The block-boundary loop of `compactionIterator.Next` (mirror of
`Iterator.nextLoop`, with no bound checks). -/
def nextLoop : Nat → Iterator → Option (Nat × Nat) × Iterator
  | 0, i => (none, i)
  | fuel + 1, i =>
    match i.data.err with
    | some e => (none, { i with err := some e })
    | none =>
      let n := i.index.Next
      let i := { i with index := n.2 }
      match n.1 with
      | none => (none, i)
      | some _ =>
        match i.loadBlock with
        | (true, i) =>
          let d := i.data.First
          let i := { i with data := d.2 }
          match d.1 with
          | none => (none, i)
          | some e => (some e, i)
        | (false, i) => nextLoop fuel i

/-- `compactionIterator.Next`: mirrors `Iterator.Next` (no bounds), then
charges the returned record: its prorated compressed offset within the
block, or the block's full on-disk extent (payload + trailer) when it is
the block's last record, minus the previous record's charge. -/
def Next (c : compactionIterator) : Option (Nat × Nat) × compactionIterator :=
  match c.it.err with
  | some _ => (none, c)
  | none =>
    let n := c.it.data.Next
    let it0 := { c.it with data := n.2 }
    let s :=
      match n.1 with
      | some e => (some e, it0)
      | none => nextLoop (it0.index.entries.length + 1) it0
    let it := s.2
    match s.1 with
    | none => (none, { c with it := it })
    | some e =>
      let d := it.data
      let recordOffset := w64 (d.nextOffset * it.dataBH.Length) / d.size
      let curOffset :=
        if d.nextOffset + 4 * (d.numRestarts + 1) = d.size then
          w64 (it.dataBH.Offset + it.dataBH.Length + blockTrailerLen)
        else
          w64 (it.dataBH.Offset + recordOffset)
      (some e, { it := it,
                 bytesIterated := w64 (c.bytesIterated + u64sub curOffset c.prevOffset),
                 prevOffset := curOffset })

/-- Repeated `Next` until it yields nothing: returns the trace of
`bytesIterated` values observed after each returned record, and the final
state. -/
def run : Nat → compactionIterator → List Nat × compactionIterator
  | 0, c => ([], c)
  | fuel + 1, c =>
    match Next c with
    | (none, c') => ([], c')
    | (some _, c') =>
      let t := run fuel c'
      (c'.bytesIterated :: t.1, t.2)

end compactionIterator

/-- A complete compaction pass over a table: `First()` followed by `Next()`
until exhaustion.  Returns the trace of `bytesIterated` values (one per
returned record) and the final state.  The fuel covers one `Next` call per
record plus the final exhausting call. -/
def compactionPass (T : List BlockRec) : List Nat × compactionIterator :=
  let c : compactionIterator := Reader.NewCompactionIter { table := T }
  let f := c.First
  let t := compactionIterator.run ((allEntries T).length + 1) f.2
  match f.1 with
  | none => (t.1, t.2)
  | some _ => (f.2.bytesIterated :: t.1, t.2)

/-- The public positioning operations of the iterator, as an op language
for sequences of calls. -/
inductive Op where
  | seekGE (k : Nat)
  | seekPrefixGE (p k : Nat)
  | seekLT (k : Nat)
  | first
  | last
  | next
  | prev
  deriving DecidableEq, Repr

/-- Dispatch one public positioning call. -/
def applyOp : Op → Iterator → Option (Nat × Nat) × Iterator
  | .seekGE k, i => i.SeekGE k
  | .seekPrefixGE p k, i => i.SeekPrefixGE p k
  | .seekLT k, i => i.SeekLT k
  | .first, i => i.First
  | .last, i => i.Last
  | .next, i => i.Next
  | .prev, i => i.Prev

/-- Operations that check the lower bound (`SeekLT`, `Last`, `Prev`). -/
def checksLower : Op → Bool
  | .seekLT _ => true
  | .last => true
  | .prev => true
  | _ => false

/-- Operations that check the upper bound (`SeekGE`, `SeekPrefixGE`,
`First`, `Next`). -/
def checksUpper : Op → Bool
  | .seekGE _ => true
  | .seekPrefixGE _ _ => true
  | .first => true
  | .next => true
  | _ => false

/-- Run a sequence of positioning calls, collecting each call's result. -/
def runOps : List Op → Iterator → List (Op × Option (Nat × Nat)) × Iterator
  | [], i => ([], i)
  | op :: ops, i =>
    let s := applyOp op i
    let t := runOps ops s.2
    ((op, s.1) :: t.1, t.2)

/-- The spec-side description of `SeekLT`'s contract: the result is the
entry with the greatest key strictly below the query (with its value), or
nothing when no key is below the query. -/
def IsGreatestLT (T : List BlockRec) (q : Nat) : Option (Nat × Nat) → Prop
  | none => ∀ e ∈ allEntries T, ¬ e.1 < q
  | some e => e ∈ allEntries T ∧ e.1 < q ∧ ∀ f ∈ allEntries T, f.1 < q → f.1 ≤ e.1

/-- The spec-side description of `SeekGE`'s contract: the least entry with
key `≥ q`.  On a table with strictly increasing keys this is the first
matching entry in table order. -/
def leastGE (T : List BlockRec) (q : Nat) : Option (Nat × Nat) :=
  (allEntries T).find? (fun e => decide (q ≤ e.1))

/-- The spec's three-block example table (§8 E2): user keys
`a b | d e | g h` become `1 2 | 4 5 | 7 8` and the index separators
`c f h` become `3 6 8`; the separator `3` falls strictly between the
first and second block. -/
def T3 : List BlockRec :=
  [ { sep := 3, entries := [(1, 10), (2, 20)] },
    { sep := 6, entries := [(4, 40), (5, 50)] },
    { sep := 8, entries := [(7, 70), (8, 80)] } ]

/-- The per-block upper bound `initBounds` computes for a block with the
given index separator. -/
def buSpec (sep : Nat) : Option Nat → Option Nat
  | none => none
  | some u => if sep < u then none else some u

/-- The per-block lower bound `initBounds` computes for a block whose
first entry is `f0`. -/
def blSpec (f0 : Option (Nat × Nat)) : Option Nat → Option Nat
  | none => none
  | some l =>
    match f0 with
    | some f => if l < f.1 then none else some l
    | none => some l

/-- Invariant carried by every iterator state reachable from `Init` with
bounds `L`/`U` on table `T`: the global bounds and table are fixed; a
suppressed per-block bound means the loaded block already satisfies that
bound, and an active per-block bound equals the global one. -/
def BoundsInv (T : List BlockRec) (L U : Option Nat) (i : Iterator) : Prop :=
  i.lower = L ∧ i.upper = U ∧ i.table = T ∧ i.index.entries = idxOf T ∧
  (∀ u, U = some u → i.blockUpper = none → ∀ e ∈ i.data.entries, e.1 < u) ∧
  (∀ x, i.blockUpper = some x → U = some x) ∧
  (∀ l, L = some l → i.blockLower = none → ∀ e ∈ i.data.entries, l ≤ e.1) ∧
  (∀ x, i.blockLower = some x → L = some x)

/-- Total on-disk extent of the data blocks: payload plus 5-byte trailer
for each block. -/
def sumBlocks (T : List BlockRec) : Nat :=
  (T.map (fun b => b.bh.Length + blockTrailerLen)).sum

/-- Data blocks are laid out back to back: each block starts where the
previous one's payload and trailer end. -/
def contigChain : List BlockRec → Bool
  | a :: b :: rest =>
    decide (b.bh.Offset = a.bh.Offset + a.bh.Length + blockTrailerLen) && contigChain (b :: rest)
  | _ => true

/-- The compressed-file-space offset the compaction iterator charges up to
after returning record `r` of block `j`: the block's full extent for the
block's last record, and the prorated offset otherwise. -/
def cum (T : List BlockRec) (j r : Nat) : Nat :=
  let b := T.getD j { sep := 0, entries := [] }
  if r + 1 = b.entries.length then b.bh.Offset + b.bh.Length + blockTrailerLen
  else b.bh.Offset + b.offsets.getD r 0 * b.bh.Length / b.size

/-- Number of records strictly after position `(j, r)`. -/
def remaining (T : List BlockRec) (j r : Nat) : Nat :=
  ((T.drop (j + 1)).map (fun b => b.entries.length)).sum +
    ((T.getD j { sep := 0, entries := [] }).entries.length - 1 - r)

/-- Well-formed table for compaction accounting: a well-formed nonempty
table whose blocks carry consistent encoding metadata — one `nextOffset`
per record, strictly increasing, the last one ending exactly at the
restart array (whose size the block length accounts for), realistic
32-bit block sizes, products that fit in 64 bits, and a contiguous
on-disk layout starting at offset 0 whose total extent fits in 64 bits. -/
def wfC (T : List BlockRec) : Prop :=
  wfTable T ∧ T ≠ [] ∧
  (∀ b ∈ T, b.offsets.length = b.entries.length) ∧
  (∀ b ∈ T, b.offsets.Pairwise (· < ·)) ∧
  (∀ b ∈ T, (b.offsets.getLast?).map (fun o => o + 4 * (b.numRestarts + 1)) = some b.size) ∧
  (∀ b ∈ T, b.size < 2 ^ 31) ∧
  (∀ b ∈ T, b.size * b.bh.Length < 2 ^ 64) ∧
  ((T.head?).map (fun b => b.bh.Offset) = some 0) ∧
  contigChain T = true ∧
  sumBlocks T < 2 ^ 64

instance (T : List BlockRec) : Decidable (wfC T) :=
  inferInstanceAs (Decidable
    (wfTable T ∧ T ≠ [] ∧
     (∀ b ∈ T, b.offsets.length = b.entries.length) ∧
     (∀ b ∈ T, b.offsets.Pairwise (fun a b : Nat => a < b)) ∧
     (∀ b ∈ T, (b.offsets.getLast?).map (fun o => o + 4 * (b.numRestarts + 1)) = some b.size) ∧
     (∀ b ∈ T, b.size < 2 ^ 31) ∧
     (∀ b ∈ T, b.size * b.bh.Length < 2 ^ 64) ∧
     ((T.head?).map (fun b => b.bh.Offset) = some 0) ∧
     contigChain T = true ∧
     sumBlocks T < 2 ^ 64))

/-- State invariant of the compaction pass: the iterator rests on record
`r` of block `j` with no error and no bounds, and both the shared counter
and `prevOffset` equal the cumulative charge `cum T j r`. -/
def CInv (T : List BlockRec) (j r : Nat) (c : compactionIterator) : Prop :=
  c.it.table = T ∧ c.it.index.entries = idxOf T ∧
  c.it.index.pos = j ∧ c.it.index.valid = true ∧
  c.it.err = none ∧ c.it.data.err = none ∧
  c.it.lower = none ∧ c.it.upper = none ∧
  c.it.blockLower = none ∧ c.it.blockUpper = none ∧
  (∃ bj, T[j]? = some bj ∧
    c.it.data.entries = bj.entries ∧ c.it.data.offsets = bj.offsets ∧
    c.it.data.numRestarts = bj.numRestarts ∧ c.it.data.size = bj.size ∧
    c.it.dataBH = bj.bh ∧ r < bj.entries.length) ∧
  c.it.data.pos = r ∧ c.it.data.valid = true ∧
  c.bytesIterated = cum T j r ∧ c.prevOffset = cum T j r

/-- A concrete three-block table with contiguous on-disk layout. -/
def T3c : List BlockRec :=
  [{ sep := 3, entries := [(1, 10), (2, 20)], bh := { Offset := 0, Length := 100 },
     size := 100, numRestarts := 1, offsets := [40, 92] },
   { sep := 6, entries := [(4, 40), (5, 50)], bh := { Offset := 105, Length := 200 },
     size := 200, numRestarts := 1, offsets := [90, 192] },
   { sep := 8, entries := [(7, 70), (8, 80)], bh := { Offset := 310, Length := 50 },
     size := 50, numRestarts := 1, offsets := [20, 42] }]

end sstable

namespace sstable

/-! ### Helper lemmas -/

theorem idxOf_length (T : List BlockRec) : (idxOf T).length = T.length := by
  simp [idxOf]

theorem idxOf_getElem (T : List BlockRec) (p : Nat) (h : p < T.length) :
    (getElem (idxOf T) (p) (by simpa [idxOf_length] using h)) = (T[p].sep, p) := by
  simp [idxOf]

theorem idxOf_getElem? (T : List BlockRec) (p : Nat) :
    (idxOf T)[p]? = (T[p]?).map (fun b => (b.sep, p)) := by
  simp only [idxOf, List.getElem?_map, List.getElem?_enum]
  cases T[p]? <;> simp

theorem mem_allEntries {T : List BlockRec} {b : BlockRec} {e : Nat × Nat}
    (hb : b ∈ T) (he : e ∈ b.entries) : e ∈ allEntries T := by
  simp only [allEntries, List.mem_flatten, List.mem_map]
  exact ⟨b.entries, ⟨b, hb, rfl⟩, he⟩

theorem allEntries_cases {T : List BlockRec} {f : Nat × Nat}
    (hf : f ∈ allEntries T) :
    ∃ r : Nat, ∃ br : BlockRec, ∃ _ : r < T.length, T[r] = br ∧ f ∈ br.entries := by
  simp only [allEntries, List.mem_flatten, List.mem_map] at hf
  obtain ⟨l, ⟨b, hb, rfl⟩, hfl⟩ := hf
  obtain ⟨r, hr, rfl⟩ := List.mem_iff_getElem.mp hb
  exact ⟨r, _, hr, rfl, hfl⟩

/-- Cross-block ordering: every key of an earlier block is strictly below
every key of a later block. -/
theorem pairwise_cross {T : List BlockRec} (hwf : wfTable T)
    {p q : Nat} (hpq : p < q) (hq : q < T.length)
    {e f : Nat × Nat} (he : e ∈ ((getElem T (p) (hpq.trans hq))).entries)
    (hf : f ∈ T[q].entries) : e.1 < f.1 := by
  have hall := hwf.2.2.2.1
  rw [allKeys, List.pairwise_flatten] at hall
  have hcross := hall.2
  rw [List.pairwise_iff_getElem] at hcross
  have hlen : (T.map (fun b => b.entries.map Prod.fst)).length = T.length := by simp
  have := hcross p q (by simpa [hlen] using hpq.trans hq) (by simpa [hlen] using hq) hpq
  simp only [List.getElem_map] at this
  exact this e.1 (List.mem_map_of_mem Prod.fst he) f.1 (List.mem_map_of_mem Prod.fst hf)

/-- Within a sorted block, the entry at a later-or-equal index is at least
as large. -/
theorem within_le {l : List (Nat × Nat)}
    (hs : l.Pairwise (fun e f => e.1 < f.1)) {j m : Nat}
    (hj : j ≤ m) (hm : m < l.length) :
    ((getElem l (j) (lt_of_le_of_lt hj hm))).1 ≤ l[m].1 := by
  rcases Nat.lt_or_ge j m with h | h
  · exact le_of_lt ((List.pairwise_iff_getElem.mp hs) j m _ hm h)
  · have : j = m := le_antisymm hj h
    subst this
    exact le_refl _

/-- Within a sorted block, the first entry's key is a lower bound. -/
theorem first_le {l : List (Nat × Nat)}
    (hs : l.Pairwise (fun e f => e.1 < f.1)) {f : Nat × Nat}
    (hf : f ∈ l) (h0 : 0 < l.length) : ((getElem l (0) h0)).1 ≤ f.1 := by
  obtain ⟨j, hj, rfl⟩ := List.mem_iff_getElem.mp hf
  exact within_le hs (Nat.zero_le j) hj

theorem takeWhile_len_le {α : Type} (p : α → Bool) (l : List α) :
    (l.takeWhile p).length ≤ l.length :=
  (List.takeWhile_prefix p).length_le

theorem takeWhile_pred {α : Type} (p : α → Bool) (l : List α) {j : Nat}
    (hj : j < (l.takeWhile p).length) :
    p ((getElem l (j) (lt_of_lt_of_le hj (takeWhile_len_le p l)))) = true := by
  have hmem : (l.takeWhile p)[j] ∈ l.takeWhile p := List.getElem_mem hj
  have := List.mem_takeWhile_imp hmem
  rwa [(List.takeWhile_prefix p).getElem hj] at this

theorem takeWhile_stop {α : Type} (p : α → Bool) :
    ∀ (l : List α) {x : α}, l[(l.takeWhile p).length]? = some x → p x = false := by
  intro l
  induction l with
  | nil => intro x h; simp at h
  | cons a t ih =>
    intro x h
    by_cases hpa : p a = true
    · rw [List.takeWhile_cons, if_pos hpa] at h
      exact ih (by simpa using h)
    · rw [List.takeWhile_cons, if_neg hpa] at h
      simp only [List.length_nil, List.getElem?_cons_zero, Option.some.injEq] at h
      rw [h] at hpa
      simpa using hpa

/-- Adjacent separator link extracted from `sepChain`. -/
theorem sepChain_adj :
    ∀ (T : List BlockRec), sepChain T = true →
      ∀ (j : Nat) (hj1 : j + 1 < T.length),
        ∀ f ∈ (T[j + 1].entries).take 1, ((getElem T (j) (Nat.lt_of_succ_lt hj1))).sep < f.1 := by
  intro T
  induction T with
  | nil => intro _ j hj1; simp at hj1
  | cons a t ih =>
    intro hsc j hj1 f hf
    match t, hj1 with
    | b :: rest, hj1 =>
      rw [sepChain] at hsc
      have h1 := (Bool.and_eq_true_iff.mp hsc).1
      have h2 := (Bool.and_eq_true_iff.mp hsc).2
      match j with
      | 0 =>
        simp only [List.getElem_cons_succ, List.getElem_cons_zero] at hf ⊢
        have := List.all_eq_true.mp h1 f hf
        simpa using this
      | j' + 1 =>
        simp only [List.getElem_cons_succ] at hf ⊢
        exact ih h2 j' (by simpa using hj1) f hf

/-- The first key of the block after block `j` is strictly above block
`j`'s separator. -/
theorem sep_lt_next_first {T : List BlockRec} (hwf : wfTable T)
    {j : Nat} (hj1 : j + 1 < T.length) (hne : T[j + 1].entries ≠ []) :
    ((getElem T (j) (Nat.lt_of_succ_lt hj1))).sep <
      ((getElem (T[j + 1].entries) (0) (List.length_pos.mpr hne))).1 := by
  have h0 : 0 < (T[j + 1].entries).length := List.length_pos.mpr hne
  apply sepChain_adj T hwf.2.2.2.2 j hj1 ((getElem (T[j + 1].entries) (0) h0))
  rw [List.mem_iff_getElem?]
  exact ⟨0, by simp [List.getElem?_take, List.getElem?_eq_getElem h0]⟩

/-- Every public positioning method short-circuits on the sticky error,
returning `(nil, nil)` and leaving the iterator untouched. -/
theorem applyOp_err (op : Op) (i : Iterator) (e : String) (h : i.err = some e) :
    applyOp op i = (none, i) := by
  cases op <;>
    simp [applyOp, Iterator.SeekGE, Iterator.SeekPrefixGE, Iterator.SeekLT,
      Iterator.First, Iterator.Last, Iterator.Next, Iterator.Prev, h]

theorem BIter.First_shape (b : BIter) :
    ∃ p v, (b.First).2 = { b with pos := p, valid := v } := by
  cases h : b.entries[0]? with
  | none => exact ⟨0, false, by simp [BIter.First, h]⟩
  | some x => exact ⟨0, true, by simp [BIter.First, h]⟩

theorem BIter.Last_shape (b : BIter) :
    ∃ p v, (b.Last).2 = { b with pos := p, valid := v } := by
  by_cases h : b.entries.isEmpty
  · exact ⟨0, false, by simp [BIter.Last, h]⟩
  · exact ⟨b.entries.length - 1, true, by simp [BIter.Last, h]⟩

theorem BIter.Next_shape (b : BIter) :
    ∃ p v, (b.Next).2 = { b with pos := p, valid := v } := by
  by_cases h : b.valid
  · exact ⟨b.pos + 1, decide (b.pos + 1 < b.entries.length), by simp [BIter.Next, h]⟩
  · refine ⟨b.pos, false, ?_⟩
    rcases b with ⟨en, pos, val, err, off, nr, sz⟩
    simp_all [BIter.Next]

theorem BIter.Prev_shape (b : BIter) :
    ∃ p v, (b.Prev).2 = { b with pos := p, valid := v } := by
  by_cases h : b.valid
  · by_cases h0 : b.pos = 0
    · exact ⟨b.pos, false, by simp [BIter.Prev, h, h0]⟩
    · exact ⟨b.pos - 1, b.valid, by simp [BIter.Prev, h, h0]⟩
  · refine ⟨b.pos, false, ?_⟩
    rcases b with ⟨en, pos, val, err, off, nr, sz⟩
    simp_all [BIter.Prev]

theorem BIter.SeekGE_shape (b : BIter) (k : Nat) :
    ∃ p v, (b.SeekGE k).2 = { b with pos := p, valid := v } := by
  cases h : b.entries.findIdx? (fun e => decide (k ≤ e.1)) with
  | none => exact ⟨b.entries.length, false, by simp [BIter.SeekGE, h]⟩
  | some p => exact ⟨p, true, by simp [BIter.SeekGE, h]⟩

theorem BIter.SeekLT_shape (b : BIter) (k : Nat) :
    ∃ p v, (b.SeekLT k).2 = { b with pos := p, valid := v } := by
  by_cases h : (b.entries.takeWhile (fun e => decide (e.1 < k))).length = 0
  · exact ⟨0, false, by simp [BIter.SeekLT, h]⟩
  · exact ⟨(b.entries.takeWhile (fun e => decide (e.1 < k))).length - 1, true,
      by simp [BIter.SeekLT, h]⟩

theorem BIter.First_mem (b : BIter) (e : Nat × Nat) (h : (b.First).1 = some e) :
    e ∈ b.entries := by
  cases h0 : b.entries[0]? with
  | none => simp [BIter.First, h0] at h
  | some x =>
    simp [BIter.First, h0] at h
    subst h
    exact List.getElem?_mem h0

theorem BIter.Last_mem (b : BIter) (e : Nat × Nat) (h : (b.Last).1 = some e) :
    e ∈ b.entries := by
  by_cases h0 : b.entries.isEmpty
  · simp [BIter.Last, h0] at h
  · simp only [BIter.Last, h0, Bool.false_eq_true, if_false] at h
    exact List.getElem?_mem h

theorem BIter.Next_mem (b : BIter) (e : Nat × Nat) (h : (b.Next).1 = some e) :
    e ∈ b.entries := by
  by_cases h0 : b.valid
  · simp only [BIter.Next, h0, if_true] at h
    exact List.getElem?_mem h
  · simp [BIter.Next, h0] at h

theorem BIter.Prev_mem (b : BIter) (e : Nat × Nat) (h : (b.Prev).1 = some e) :
    e ∈ b.entries := by
  by_cases h0 : b.valid
  · by_cases h1 : b.pos = 0
    · simp [BIter.Prev, h0, h1] at h
    · simp only [BIter.Prev, h0, h1, if_true, if_false, Bool.false_eq_true] at h
      exact List.getElem?_mem h
  · simp [BIter.Prev, h0] at h

theorem BIter.SeekGE_mem (b : BIter) (k : Nat) (e : Nat × Nat)
    (h : (b.SeekGE k).1 = some e) : e ∈ b.entries := by
  cases h0 : b.entries.findIdx? (fun x => decide (k ≤ x.1)) with
  | none => simp [BIter.SeekGE, h0] at h
  | some p =>
    simp only [BIter.SeekGE, h0] at h
    exact List.getElem?_mem h

theorem BIter.SeekLT_mem (b : BIter) (k : Nat) (e : Nat × Nat)
    (h : (b.SeekLT k).1 = some e) : e ∈ b.entries := by
  by_cases h0 : (b.entries.takeWhile (fun x => decide (x.1 < k))).length = 0
  · simp [BIter.SeekLT, h0] at h
  · simp only [BIter.SeekLT, h0, if_false] at h
    exact List.getElem?_mem h

theorem inv_data {T : List BlockRec} {L U : Option Nat} {i : Iterator}
    (h : BoundsInv T L U i) (d : BIter) (hd : d.entries = i.data.entries) :
    BoundsInv T L U { i with data := d } := by
  obtain ⟨h1, h2, h3, h4, h5, h6, h7, h8⟩ := h
  refine ⟨h1, h2, h3, h4, ?_, h6, ?_, h8⟩
  · intro u hu hbu e he
    exact h5 u hu hbu e (hd ▸ he)
  · intro l hl hbl e he
    exact h7 l hl hbl e (hd ▸ he)

theorem inv_index {T : List BlockRec} {L U : Option Nat} {i : Iterator}
    (h : BoundsInv T L U i) (ix : BIter) (hix : ix.entries = i.index.entries) :
    BoundsInv T L U { i with index := ix } := by
  obtain ⟨h1, h2, h3, h4, h5, h6, h7, h8⟩ := h
  exact ⟨h1, h2, h3, by rw [← h4, hix], h5, h6, h7, h8⟩

theorem inv_err {T : List BlockRec} {L U : Option Nat} {i : Iterator}
    (h : BoundsInv T L U i) (e : Option String) :
    BoundsInv T L U { i with err := e } := h

theorem initBounds_nb (j : Iterator) (hl : j.lower = none) (hu : j.upper = none) :
    j.initBounds = j := by
  simp [Iterator.initBounds, hl, hu]

theorem initBounds_frame (j : Iterator) :
    (j.initBounds).lower = j.lower ∧ (j.initBounds).upper = j.upper ∧
    (j.initBounds).table = j.table ∧ (j.initBounds).tFilter = j.tFilter ∧
    (j.initBounds).index = j.index ∧ (j.initBounds).data.entries = j.data.entries ∧
    (j.initBounds).dataBH = j.dataBH ∧ (j.initBounds).err = j.err := by
  rcases hl : j.lower with _ | l <;> rcases hu : j.upper with _ | u <;>
    rcases h0 : j.data.entries[0]? with _ | f0 <;>
      simp [Iterator.initBounds, hl, hu, BIter.First, h0] <;>
        split_ifs <;> simp

theorem initBounds_blockUpper (j : Iterator) (hno : j.lower = none → j.upper ≠ none) :
    (j.initBounds).blockUpper =
      (match j.upper with
       | none => none
       | some u =>
         match j.index.Key with
         | some s => if u > s.1 then none else some u
         | none => some u) := by
  rcases hl : j.lower with _ | l <;> rcases hu : j.upper with _ | u
  · exact absurd hu (hno hl)
  · rcases hk : j.index.Key with _ | s <;>
      simp [Iterator.initBounds, hl, hu, hk]
  · rcases h0 : j.data.entries[0]? with _ | f0 <;>
      simp [Iterator.initBounds, hl, hu, BIter.First, h0] <;>
        split_ifs <;> simp
  · rcases h0 : j.data.entries[0]? with _ | f0 <;>
      rcases hk : j.index.Key with _ | s <;>
        simp [Iterator.initBounds, hl, hu, BIter.First, h0, hk] <;>
          split_ifs <;> simp [hk] <;> omega

theorem initBounds_blockLower (j : Iterator) (hno : j.lower = none → j.upper ≠ none) :
    (j.initBounds).blockLower =
      (match j.lower with
       | none => none
       | some l =>
         match j.data.entries[0]? with
         | some f0 => if l < f0.1 then none else some l
         | none => some l) := by
  rcases hl : j.lower with _ | l <;> rcases hu : j.upper with _ | u
  · exact absurd hu (hno hl)
  · simp [Iterator.initBounds, hl, hu]
  · rcases h0 : j.data.entries[0]? with _ | f0 <;>
      simp [Iterator.initBounds, hl, hu, BIter.First, h0] <;>
        split_ifs <;> simp
  · rcases h0 : j.data.entries[0]? with _ | f0 <;>
      simp [Iterator.initBounds, hl, hu, BIter.First, h0] <;>
        split_ifs <;> simp

/-- `initBounds` establishes the per-block bound soundness clauses for a
freshly loaded block. -/
theorem initBounds_inv (T : List BlockRec) (L U : Option Nat) (j : Iterator)
    (hwf : wfTable T)
    (h1 : j.lower = L) (h2 : j.upper = U) (h3 : j.table = T)
    (h4 : j.index.entries = idxOf T)
    (h6 : ∀ x, j.blockUpper = some x → U = some x)
    (h8 : ∀ x, j.blockLower = some x → L = some x)
    (p : Nat) (hp : p < T.length) (hpos : j.index.pos = p)
    (hdata : j.data.entries = ((getElem T (p) hp)).entries) :
    BoundsInv T L U j.initBounds := by
  have hpmem : (getElem T (p) hp) ∈ T := List.getElem_mem hp
  have hkey : j.index.Key = some (((getElem T (p) hp)).sep, p) := by
    rw [BIter.Key, h4, hpos, idxOf_getElem?, List.getElem?_eq_getElem hp]
    rfl
  obtain ⟨f1, f2, f3, f4, f5, f6, f7, f8⟩ := initBounds_frame j
  by_cases hnb : j.lower = none ∧ j.upper = none
  · rw [initBounds_nb j hnb.1 hnb.2]
    refine ⟨h1, h2, h3, h4, ?_, ?_, ?_, ?_⟩
    · intro u hu _
      rw [hnb.2, hu] at h2
      cases h2
    · exact h6
    · intro l hl _
      rw [hnb.1, hl] at h1
      cases h1
    · exact h8
  · have hno : j.lower = none → j.upper ≠ none := by
      intro ha hb
      exact hnb ⟨ha, hb⟩
    have hbu2 : j.initBounds.blockUpper = buSpec ((getElem T (p) hp)).sep U := by
      rw [initBounds_blockUpper j hno, hkey, h2]
      rcases U with _ | u
      · rfl
      · simp [buSpec, gt_iff_lt]
    have hbl2 : j.initBounds.blockLower = blSpec (j.data.entries[0]?) L := by
      rw [initBounds_blockLower j hno, h1]
      rcases L with _ | l
      · rfl
      · rfl
    refine ⟨f1.trans h1, f2.trans h2, f3.trans h3, by rw [f5]; exact h4, ?_, ?_, ?_, ?_⟩
    · intro u hu hbun e he
      rw [f6, hdata] at he
      have hle : e.1 ≤ ((getElem T (p) hp)).sep := hwf.2.2.1 _ hpmem e he
      have hb3 : j.initBounds.blockUpper = if ((getElem T (p) hp)).sep < u then none else some u := by
        rw [hbu2, hu]
        simp only [buSpec]
      rw [hb3] at hbun
      split_ifs at hbun with hus
      omega
    · intro x hbx
      rcases hU : U with _ | u
      · rw [hbu2, hU] at hbx
        simp [buSpec] at hbx
      · have hb3 : j.initBounds.blockUpper = if ((getElem T (p) hp)).sep < u then none else some u := by
          rw [hbu2, hU]
          simp only [buSpec]
        rw [hb3] at hbx
        split_ifs at hbx with hus
        exact hbx
    · intro l hl hbln e he
      rw [f6, hdata] at he
      rcases h0 : j.data.entries[0]? with _ | f0
      · have hb3 : j.initBounds.blockLower = some l := by
          rw [hbl2, hl, h0]
          simp only [blSpec]
        rw [hb3] at hbln
        simp at hbln
      · have hb3 : j.initBounds.blockLower = if l < f0.1 then none else some l := by
          rw [hbl2, hl, h0]
          simp only [blSpec]
        rw [hb3] at hbln
        split_ifs at hbln with hlf
        · have h00 : 0 < ((getElem T (p) hp)).entries.length := by
            obtain ⟨hh, -⟩ := List.getElem?_eq_some_iff.mp (hdata ▸ h0)
            omega
          have hf0 : (getElem ((getElem T (p) hp)).entries (0) h00) = f0 := by
            have h0' := hdata ▸ h0
            rw [List.getElem?_eq_getElem h00] at h0'
            exact (Option.some.injEq _ _).mp h0'
          have hfirst := first_le (hwf.2.1 _ hpmem) he h00
          rw [hf0] at hfirst
          omega
    · intro x hbx
      rcases hL : L with _ | l
      · rw [hbl2, hL] at hbx
        simp [blSpec] at hbx
      · rcases h0 : j.data.entries[0]? with _ | f0
        · have hb3 : j.initBounds.blockLower = some l := by
            rw [hbl2, hL, h0]
            simp only [blSpec]
          rw [hb3] at hbx
          exact hbx
        · have hb3 : j.initBounds.blockLower = if l < f0.1 then none else some l := by
            rw [hbl2, hL, h0]
            simp only [blSpec]
          rw [hb3] at hbx
          split_ifs at hbx with hlf
          exact hbx

/-- `loadBlock` preserves the bounds invariant: a failed load leaves the
per-block bound state consistent (the data cursor is cleared or kept),
and a successful load re-establishes it through `initBounds`. -/
theorem loadBlock_inv {T : List BlockRec} {L U : Option Nat} {i : Iterator}
    (hwf : wfTable T) (h : BoundsInv T L U i) :
    BoundsInv T L U (i.loadBlock).2 := by
  obtain ⟨h1, h2, h3, h4, h5, h6, h7, h8⟩ := h
  by_cases hv : i.index.valid
  · rcases hk : i.index.Key with _ | v
    · have : (i.loadBlock).2 = { i with err := some "pebble/table: corrupt index entry" } := by
        simp [Iterator.loadBlock, hv, hk]
      rw [this]
      exact ⟨h1, h2, h3, h4, h5, h6, h7, h8⟩
    · have hkv : (idxOf T)[i.index.pos]? = some v := by
        rw [← h4]
        exact hk
      rw [idxOf_getElem?] at hkv
      rcases hTp : T[i.index.pos]? with _ | bp
      · rw [hTp] at hkv
        cases hkv
      · rw [hTp] at hkv
        have hv2 : v = (bp.sep, i.index.pos) := by
          simpa using hkv.symm
        obtain ⟨hplt, hTpe⟩ := List.getElem?_eq_some_iff.mp hTp
        have htab2 : i.table[v.2]? = some bp := by
          rw [h3, hv2]
          exact hTp
        have hred : (i.loadBlock).2 =
            (Iterator.initBounds
              { i with data := { entries := bp.entries, pos := 0, valid := false,
                                 err := none, offsets := bp.offsets,
                                 numRestarts := bp.numRestarts, size := bp.size },
                       dataBH := bp.bh }) := by
          simp [Iterator.loadBlock, hv, hk, htab2]
        rw [hred]
        exact initBounds_inv T L U _ hwf h1 h2 h3 h4 h6 h8 i.index.pos hplt rfl
          (by simp [hTpe])
  · have hred : (i.loadBlock).2 =
        { i with err := i.index.err,
                 data := { i.data with entries := [], pos := 0, valid := false, offsets := [], size := 0 } } := by
      simp [Iterator.loadBlock, hv]
    rw [hred]
    refine ⟨h1, h2, h3, h4, ?_, h6, ?_, h8⟩
    · intro u hu hbu e he
      simp at he
    · intro l hl hbl e he
      simp at he

/-- The upper-bound check: the invariant survives, and any returned entry
taken from the current block respects the global upper bound. -/
theorem checkUpper_spec {T : List BlockRec} {L U : Option Nat} {i : Iterator}
    (h : BoundsInv T L U i) (e : Nat × Nat) (he : e ∈ i.data.entries) :
    BoundsInv T L U (i.checkUpper e).2 ∧
    (∀ e', (i.checkUpper e).1 = some e' →
      e' = e ∧ ∀ u, U = some u → e'.1 < u) := by
  rcases hbu : i.blockUpper with _ | x
  · refine ⟨by simpa [Iterator.checkUpper, hbu] using h, ?_⟩
    intro e' he'
    simp only [Iterator.checkUpper, hbu] at he'
    obtain rfl : e = e' := by simpa using he'
    refine ⟨rfl, ?_⟩
    intro u hu
    exact h.2.2.2.2.1 u hu hbu e he
  · have hux := h.2.2.2.2.2.1 x hbu
    by_cases hge : e.1 ≥ x
    · have hr : i.checkUpper e = (none, { i with data := i.data.invalidateUpper }) := by
        simp [Iterator.checkUpper, hbu, hge]
      rw [hr]
      refine ⟨inv_data h _ rfl, ?_⟩
      intro e' he'
      simp at he'
    · have hr : i.checkUpper e = (some e, i) := by
        simp [Iterator.checkUpper, hbu, hge]
      rw [hr]
      refine ⟨h, ?_⟩
      intro e' he'
      obtain rfl : e = e' := by simpa using he'
      refine ⟨rfl, ?_⟩
      intro u hu
      rw [hux] at hu
      have : x = u := by simpa using hu
      omega

/-- The lower-bound check: dual of `checkUpper_spec`. -/
theorem checkLower_spec {T : List BlockRec} {L U : Option Nat} {i : Iterator}
    (h : BoundsInv T L U i) (e : Nat × Nat) (he : e ∈ i.data.entries) :
    BoundsInv T L U (i.checkLower e).2 ∧
    (∀ e', (i.checkLower e).1 = some e' →
      e' = e ∧ ∀ l, L = some l → l ≤ e'.1) := by
  rcases hbl : i.blockLower with _ | x
  · refine ⟨by simpa [Iterator.checkLower, hbl] using h, ?_⟩
    intro e' he'
    simp only [Iterator.checkLower, hbl] at he'
    obtain rfl : e = e' := by simpa using he'
    refine ⟨rfl, ?_⟩
    intro l hl
    exact h.2.2.2.2.2.2.1 l hl hbl e he
  · have hlx := h.2.2.2.2.2.2.2 x hbl
    by_cases hge : e.1 < x
    · have hr : i.checkLower e = (none, { i with data := i.data.invalidateLower }) := by
        simp [Iterator.checkLower, hbl, hge]
      rw [hr]
      refine ⟨inv_data h _ rfl, ?_⟩
      intro e' he'
      simp at he'
    · have hr : i.checkLower e = (some e, i) := by
        simp [Iterator.checkLower, hbl, hge]
      rw [hr]
      refine ⟨h, ?_⟩
      intro e' he'
      obtain rfl : e = e' := by simpa using he'
      refine ⟨rfl, ?_⟩
      intro l hl
      rw [hlx] at hl
      have : x = l := by simpa using hl
      omega

/-- The shared `SeekGE` body: the invariant is preserved and any returned
entry respects the global upper bound. -/
theorem seekGEcore_spec {T : List BlockRec} {L U : Option Nat} {i : Iterator}
    (hwf : wfTable T) (h : BoundsInv T L U i) (key : Nat) :
    BoundsInv T L U (i.seekGEcore key).2 ∧
    ∀ e, (i.seekGEcore key).1 = some e → ∀ u, U = some u → e.1 < u := by
  obtain ⟨p1, v1, hsh⟩ := BIter.SeekGE_shape i.index key
  have h1 : BoundsInv T L U { i with index := (i.index.SeekGE key).2 } :=
    inv_index h _ (by rw [hsh])
  rcases hr1 : (i.index.SeekGE key).1 with _ | e1
  · have : i.seekGEcore key = (none, { i with index := (i.index.SeekGE key).2 }) := by
      simp only [Iterator.seekGEcore, hr1]
    rw [this]
    exact ⟨h1, by intro e he; simp at he⟩
  · rcases hlb : ({ i with index := (i.index.SeekGE key).2 } : Iterator).loadBlock
      with ⟨b, i2⟩
    have h2 : BoundsInv T L U i2 := by
      have := loadBlock_inv hwf h1
      rwa [hlb] at this
    cases b
    · have : i.seekGEcore key = (none, i2) := by
        simp only [Iterator.seekGEcore, hr1, hlb]
      rw [this]
      exact ⟨h2, by intro e he; simp at he⟩
    · obtain ⟨p2, v2, hsh2⟩ := BIter.SeekGE_shape i2.data key
      have h3 : BoundsInv T L U { i2 with data := (i2.data.SeekGE key).2 } :=
        inv_data h2 _ (by rw [hsh2])
      rcases hr2 : (i2.data.SeekGE key).1 with _ | e
      · have : i.seekGEcore key = (none, { i2 with data := (i2.data.SeekGE key).2 }) := by
          simp only [Iterator.seekGEcore, hr1, hlb, hr2]
        rw [this]
        exact ⟨h3, by intro e he; simp at he⟩
      · have hmem : e ∈ ({ i2 with data := (i2.data.SeekGE key).2 } : Iterator).data.entries := by
          rw [hsh2]
          exact BIter.SeekGE_mem i2.data key e hr2
        have : i.seekGEcore key =
            Iterator.checkUpper { i2 with data := (i2.data.SeekGE key).2 } e := by
          simp only [Iterator.seekGEcore, hr1, hlb, hr2]
        rw [this]
        obtain ⟨hci, hcr⟩ := checkUpper_spec h3 e hmem
        refine ⟨hci, ?_⟩
        intro e' he' u hu
        exact ((hcr e' he').2) u hu

/-- `First` preserves the invariant and respects the upper bound. -/
theorem First_spec {T : List BlockRec} {L U : Option Nat} {i : Iterator}
    (hwf : wfTable T) (h : BoundsInv T L U i) :
    BoundsInv T L U (i.First).2 ∧
    ∀ e, (i.First).1 = some e → ∀ u, U = some u → e.1 < u := by
  rcases herr : i.err with _ | err
  case some =>
    have : i.First = (none, i) := by simp only [Iterator.First, herr]
    rw [this]
    exact ⟨h, by intro e he; simp at he⟩
  obtain ⟨p1, v1, hsh⟩ := BIter.First_shape i.index
  have h1 : BoundsInv T L U { i with index := (i.index.First).2, err := none } :=
    inv_err (inv_index h (i.index.First).2 (by rw [hsh])) none
  rcases hr1 : (i.index.First).1 with _ | e1
  · have : i.First = (none, { i with index := (i.index.First).2, err := none }) := by
      simp only [Iterator.First, herr, hr1]
    rw [this]
    exact ⟨h1, by intro e he; simp at he⟩
  · rcases hlb : ({ i with index := (i.index.First).2, err := none } : Iterator).loadBlock
      with ⟨b, i2⟩
    have h2 : BoundsInv T L U i2 := by
      have := loadBlock_inv hwf h1
      rwa [hlb] at this
    cases b
    · have : i.First = (none, i2) := by
        simp only [Iterator.First, herr, hr1, hlb]
      rw [this]
      exact ⟨h2, by intro e he; simp at he⟩
    · obtain ⟨p2, v2, hsh2⟩ := BIter.First_shape i2.data
      have h3 : BoundsInv T L U { i2 with data := (i2.data.First).2 } :=
        inv_data h2 _ (by rw [hsh2])
      rcases hr2 : (i2.data.First).1 with _ | e
      · have : i.First = (none, { i2 with data := (i2.data.First).2 }) := by
          simp only [Iterator.First, herr, hr1, hlb, hr2]
        rw [this]
        exact ⟨h3, by intro e he; simp at he⟩
      · have hmem : e ∈ ({ i2 with data := (i2.data.First).2 } : Iterator).data.entries := by
          rw [hsh2]
          exact BIter.First_mem i2.data e hr2
        have : i.First = Iterator.checkUpper { i2 with data := (i2.data.First).2 } e := by
          simp only [Iterator.First, herr, hr1, hlb, hr2]
        rw [this]
        obtain ⟨hci, hcr⟩ := checkUpper_spec h3 e hmem
        exact ⟨hci, fun e' he' u hu => ((hcr e' he').2) u hu⟩

/-- `Last` preserves the invariant and respects the lower bound. -/
theorem Last_spec {T : List BlockRec} {L U : Option Nat} {i : Iterator}
    (hwf : wfTable T) (h : BoundsInv T L U i) :
    BoundsInv T L U (i.Last).2 ∧
    ∀ e, (i.Last).1 = some e → ∀ l, L = some l → l ≤ e.1 := by
  rcases herr : i.err with _ | err
  case some =>
    have : i.Last = (none, i) := by simp only [Iterator.Last, herr]
    rw [this]
    exact ⟨h, by intro e he; simp at he⟩
  obtain ⟨p1, v1, hsh⟩ := BIter.Last_shape i.index
  have h1 : BoundsInv T L U { i with index := (i.index.Last).2, err := none } :=
    inv_err (inv_index h (i.index.Last).2 (by rw [hsh])) none
  rcases hr1 : (i.index.Last).1 with _ | e1
  · have : i.Last = (none, { i with index := (i.index.Last).2, err := none }) := by
      simp only [Iterator.Last, herr, hr1]
    rw [this]
    exact ⟨h1, by intro e he; simp at he⟩
  · rcases hlb : ({ i with index := (i.index.Last).2, err := none } : Iterator).loadBlock
      with ⟨b, i2⟩
    have h2 : BoundsInv T L U i2 := by
      have := loadBlock_inv hwf h1
      rwa [hlb] at this
    cases b
    · have : i.Last = (none, i2) := by
        simp only [Iterator.Last, herr, hr1, hlb]
      rw [this]
      exact ⟨h2, by intro e he; simp at he⟩
    · obtain ⟨p2, v2, hsh2⟩ := BIter.Last_shape i2.data
      have h3 : BoundsInv T L U { i2 with data := (i2.data.Last).2 } :=
        inv_data h2 _ (by rw [hsh2])
      rcases hr2 : (i2.data.Last).1 with _ | e
      · have : i.Last = (none, { i2 with data := (i2.data.Last).2 }) := by
          simp only [Iterator.Last, herr, hr1, hlb, hr2]
        rw [this]
        exact ⟨h3, by intro e he; simp at he⟩
      · have hmem : e ∈ ({ i2 with data := (i2.data.Last).2 } : Iterator).data.entries := by
          rw [hsh2]
          exact BIter.Last_mem i2.data e hr2
        have : i.Last = Iterator.checkLower { i2 with data := (i2.data.Last).2 } e := by
          simp only [Iterator.Last, herr, hr1, hlb, hr2]
        rw [this]
        obtain ⟨hci, hcr⟩ := checkLower_spec h3 e hmem
        exact ⟨hci, fun e' he' l hl => ((hcr e' he').2) l hl⟩

/-- The `Next` block-boundary loop preserves the invariant and respects
the upper bound. -/
theorem nextLoop_spec {T : List BlockRec} {L U : Option Nat} (hwf : wfTable T) :
    ∀ (fuel : Nat) (i : Iterator), BoundsInv T L U i →
      BoundsInv T L U (Iterator.nextLoop fuel i).2 ∧
      ∀ e, (Iterator.nextLoop fuel i).1 = some e → ∀ u, U = some u → e.1 < u := by
  intro fuel
  induction fuel with
  | zero =>
    intro i h
    exact ⟨h, by intro e he; simp [Iterator.nextLoop] at he⟩
  | succ n ih =>
    intro i h
    rcases hde : i.data.err with _ | de
    case some =>
      have : Iterator.nextLoop (n + 1) i = (none, { i with err := some de }) := by
        simp only [Iterator.nextLoop, hde]
      rw [this]
      exact ⟨inv_err h _, by intro e he; simp at he⟩
    obtain ⟨p1, v1, hsh⟩ := BIter.Next_shape i.index
    have h1 : BoundsInv T L U { i with index := (i.index.Next).2 } :=
      inv_index h _ (by rw [hsh])
    rcases hr1 : (i.index.Next).1 with _ | e1
    · have : Iterator.nextLoop (n + 1) i = (none, { i with index := (i.index.Next).2 }) := by
        simp only [Iterator.nextLoop, hde, hr1]
      rw [this]
      exact ⟨h1, by intro e he; simp at he⟩
    · rcases hlb : ({ i with index := (i.index.Next).2 } : Iterator).loadBlock
        with ⟨b, i2⟩
      have h2 : BoundsInv T L U i2 := by
        have := loadBlock_inv hwf h1
        rwa [hlb] at this
      cases b
      · have : Iterator.nextLoop (n + 1) i = Iterator.nextLoop n i2 := by
          simp only [Iterator.nextLoop, hde, hr1, hlb]
        rw [this]
        exact ih i2 h2
      · obtain ⟨p2, v2, hsh2⟩ := BIter.First_shape i2.data
        have h3 : BoundsInv T L U { i2 with data := (i2.data.First).2 } :=
          inv_data h2 _ (by rw [hsh2])
        rcases hr2 : (i2.data.First).1 with _ | e
        · have : Iterator.nextLoop (n + 1) i =
              (none, { i2 with data := (i2.data.First).2 }) := by
            simp only [Iterator.nextLoop, hde, hr1, hlb, hr2]
          rw [this]
          exact ⟨h3, by intro e he; simp at he⟩
        · have hmem : e ∈ ({ i2 with data := (i2.data.First).2 } : Iterator).data.entries := by
            rw [hsh2]
            exact BIter.First_mem i2.data e hr2
          have : Iterator.nextLoop (n + 1) i =
              Iterator.checkUpper { i2 with data := (i2.data.First).2 } e := by
            simp only [Iterator.nextLoop, hde, hr1, hlb, hr2]
          rw [this]
          obtain ⟨hci, hcr⟩ := checkUpper_spec h3 e hmem
          exact ⟨hci, fun e' he' u hu => ((hcr e' he').2) u hu⟩

/-- `Next` preserves the invariant and respects the upper bound. -/
theorem Next_spec {T : List BlockRec} {L U : Option Nat} {i : Iterator}
    (hwf : wfTable T) (h : BoundsInv T L U i) :
    BoundsInv T L U (i.Next).2 ∧
    ∀ e, (i.Next).1 = some e → ∀ u, U = some u → e.1 < u := by
  rcases herr : i.err with _ | err
  case some =>
    have : i.Next = (none, i) := by simp only [Iterator.Next, herr]
    rw [this]
    exact ⟨h, by intro e he; simp at he⟩
  obtain ⟨p1, v1, hsh⟩ := BIter.Next_shape i.data
  have h1 : BoundsInv T L U { i with data := (i.data.Next).2, err := none } :=
    inv_err (inv_data h (i.data.Next).2 (by rw [hsh])) none
  rcases hr1 : (i.data.Next).1 with _ | e
  · have : i.Next = Iterator.nextLoop
        (({ i with data := (i.data.Next).2, err := none } : Iterator).index.entries.length + 1)
        { i with data := (i.data.Next).2, err := none } := by
      simp only [Iterator.Next, herr, hr1]
    rw [this]
    exact nextLoop_spec hwf _ _ h1
  · have hmem : e ∈ ({ i with data := (i.data.Next).2, err := none } : Iterator).data.entries := by
      rw [hsh]
      exact BIter.Next_mem i.data e hr1
    have : i.Next = Iterator.checkUpper { i with data := (i.data.Next).2, err := none } e := by
      simp only [Iterator.Next, herr, hr1]
    rw [this]
    obtain ⟨hci, hcr⟩ := checkUpper_spec h1 e hmem
    exact ⟨hci, fun e' he' u hu => ((hcr e' he').2) u hu⟩

/-- The `Prev` block-boundary loop preserves the invariant and respects
the lower bound. -/
theorem prevLoop_spec {T : List BlockRec} {L U : Option Nat} (hwf : wfTable T) :
    ∀ (fuel : Nat) (i : Iterator), BoundsInv T L U i →
      BoundsInv T L U (Iterator.prevLoop fuel i).2 ∧
      ∀ e, (Iterator.prevLoop fuel i).1 = some e → ∀ l, L = some l → l ≤ e.1 := by
  intro fuel
  induction fuel with
  | zero =>
    intro i h
    exact ⟨h, by intro e he; simp [Iterator.prevLoop] at he⟩
  | succ n ih =>
    intro i h
    rcases hde : i.data.err with _ | de
    case some =>
      have : Iterator.prevLoop (n + 1) i = (none, { i with err := some de }) := by
        simp only [Iterator.prevLoop, hde]
      rw [this]
      exact ⟨inv_err h _, by intro e he; simp at he⟩
    obtain ⟨p1, v1, hsh⟩ := BIter.Prev_shape i.index
    have h1 : BoundsInv T L U { i with index := (i.index.Prev).2 } :=
      inv_index h _ (by rw [hsh])
    rcases hr1 : (i.index.Prev).1 with _ | e1
    · have : Iterator.prevLoop (n + 1) i = (none, { i with index := (i.index.Prev).2 }) := by
        simp only [Iterator.prevLoop, hde, hr1]
      rw [this]
      exact ⟨h1, by intro e he; simp at he⟩
    · rcases hlb : ({ i with index := (i.index.Prev).2 } : Iterator).loadBlock
        with ⟨b, i2⟩
      have h2 : BoundsInv T L U i2 := by
        have := loadBlock_inv hwf h1
        rwa [hlb] at this
      cases b
      · have : Iterator.prevLoop (n + 1) i = Iterator.prevLoop n i2 := by
          simp only [Iterator.prevLoop, hde, hr1, hlb]
        rw [this]
        exact ih i2 h2
      · obtain ⟨p2, v2, hsh2⟩ := BIter.Last_shape i2.data
        have h3 : BoundsInv T L U { i2 with data := (i2.data.Last).2 } :=
          inv_data h2 _ (by rw [hsh2])
        rcases hr2 : (i2.data.Last).1 with _ | e
        · have : Iterator.prevLoop (n + 1) i =
              (none, { i2 with data := (i2.data.Last).2 }) := by
            simp only [Iterator.prevLoop, hde, hr1, hlb, hr2]
          rw [this]
          exact ⟨h3, by intro e he; simp at he⟩
        · have hmem : e ∈ ({ i2 with data := (i2.data.Last).2 } : Iterator).data.entries := by
            rw [hsh2]
            exact BIter.Last_mem i2.data e hr2
          have : Iterator.prevLoop (n + 1) i =
              Iterator.checkLower { i2 with data := (i2.data.Last).2 } e := by
            simp only [Iterator.prevLoop, hde, hr1, hlb, hr2]
          rw [this]
          obtain ⟨hci, hcr⟩ := checkLower_spec h3 e hmem
          exact ⟨hci, fun e' he' l hl => ((hcr e' he').2) l hl⟩

/-- `Prev` preserves the invariant and respects the lower bound. -/
theorem Prev_spec {T : List BlockRec} {L U : Option Nat} {i : Iterator}
    (hwf : wfTable T) (h : BoundsInv T L U i) :
    BoundsInv T L U (i.Prev).2 ∧
    ∀ e, (i.Prev).1 = some e → ∀ l, L = some l → l ≤ e.1 := by
  rcases herr : i.err with _ | err
  case some =>
    have : i.Prev = (none, i) := by simp only [Iterator.Prev, herr]
    rw [this]
    exact ⟨h, by intro e he; simp at he⟩
  obtain ⟨p1, v1, hsh⟩ := BIter.Prev_shape i.data
  have h1 : BoundsInv T L U { i with data := (i.data.Prev).2, err := none } :=
    inv_err (inv_data h (i.data.Prev).2 (by rw [hsh])) none
  rcases hr1 : (i.data.Prev).1 with _ | e
  · have : i.Prev = Iterator.prevLoop
        (({ i with data := (i.data.Prev).2, err := none } : Iterator).index.entries.length + 1)
        { i with data := (i.data.Prev).2, err := none } := by
      simp only [Iterator.Prev, herr, hr1]
    rw [this]
    exact prevLoop_spec hwf _ _ h1
  · have hmem : e ∈ ({ i with data := (i.data.Prev).2, err := none } : Iterator).data.entries := by
      rw [hsh]
      exact BIter.Prev_mem i.data e hr1
    have : i.Prev = Iterator.checkLower { i with data := (i.data.Prev).2, err := none } e := by
      simp only [Iterator.Prev, herr, hr1]
    rw [this]
    obtain ⟨hci, hcr⟩ := checkLower_spec h1 e hmem
    exact ⟨hci, fun e' he' l hl => ((hcr e' he').2) l hl⟩

/-- The `SeekLT` body: the invariant is preserved and any returned entry
respects the global lower bound. -/
theorem seekLTcore_spec {T : List BlockRec} {L U : Option Nat} {i : Iterator}
    (hwf : wfTable T) (h : BoundsInv T L U i) (key : Nat) :
    BoundsInv T L U (i.seekLTcore key).2 ∧
    ∀ e, (i.seekLTcore key).1 = some e → ∀ l, L = some l → l ≤ e.1 := by
  rcases hlb : i.loadBlock with ⟨b, i2⟩
  have h2 : BoundsInv T L U i2 := by
    have := loadBlock_inv hwf h
    rwa [hlb] at this
  cases b
  · have : i.seekLTcore key = (none, i2) := by
      simp only [Iterator.seekLTcore, hlb]
    rw [this]
    exact ⟨h2, by intro e he; simp at he⟩
  · obtain ⟨p2, v2, hsh2⟩ := BIter.SeekLT_shape i2.data key
    have h3 : BoundsInv T L U { i2 with data := (i2.data.SeekLT key).2 } :=
      inv_data h2 _ (by rw [hsh2])
    rcases hr2 : (i2.data.SeekLT key).1 with _ | e
    · -- step back to the previous block
      obtain ⟨p3, v3, hsh3⟩ := BIter.Prev_shape i2.index
      have h4 : BoundsInv T L U
          { i2 with data := (i2.data.SeekLT key).2, index := (i2.index.Prev).2 } := by
        have := inv_index h3 (i2.index.Prev).2 (by rw [hsh3])
        exact this
      rcases hr3 : (i2.index.Prev).1 with _ | e3
      · have : i.seekLTcore key =
            (none, { i2 with data := (i2.data.SeekLT key).2, index := (i2.index.Prev).2 }) := by
          simp only [Iterator.seekLTcore, hlb, hr2, hr3]
        rw [this]
        exact ⟨h4, by intro e he; simp at he⟩
      · rcases hlb2 : ({ i2 with data := (i2.data.SeekLT key).2, index := (i2.index.Prev).2 } : Iterator).loadBlock
            with ⟨b2, i5⟩
        have h5 : BoundsInv T L U i5 := by
          have := loadBlock_inv hwf h4
          rwa [hlb2] at this
        cases b2
        · have : i.seekLTcore key = (none, i5) := by
            simp only [Iterator.seekLTcore, hlb, hr2, hr3, hlb2]
          rw [this]
          exact ⟨h5, by intro e he; simp at he⟩
        · obtain ⟨p6, v6, hsh6⟩ := BIter.Last_shape i5.data
          have h6 : BoundsInv T L U { i5 with data := (i5.data.Last).2 } :=
            inv_data h5 _ (by rw [hsh6])
          rcases hr6 : (i5.data.Last).1 with _ | e6
          · have : i.seekLTcore key = (none, { i5 with data := (i5.data.Last).2 }) := by
              simp only [Iterator.seekLTcore, hlb, hr2, hr3, hlb2, hr6]
            rw [this]
            exact ⟨h6, by intro e he; simp at he⟩
          · have hmem : e6 ∈ ({ i5 with data := (i5.data.Last).2 } : Iterator).data.entries := by
              rw [hsh6]
              exact BIter.Last_mem i5.data e6 hr6
            have : i.seekLTcore key =
                Iterator.checkLower { i5 with data := (i5.data.Last).2 } e6 := by
              simp only [Iterator.seekLTcore, hlb, hr2, hr3, hlb2, hr6]
            rw [this]
            obtain ⟨hci, hcr⟩ := checkLower_spec h6 e6 hmem
            exact ⟨hci, fun e' he' l hl => ((hcr e' he').2) l hl⟩
    · have hmem : e ∈ ({ i2 with data := (i2.data.SeekLT key).2 } : Iterator).data.entries := by
        rw [hsh2]
        exact BIter.SeekLT_mem i2.data key e hr2
      have : i.seekLTcore key =
          Iterator.checkLower { i2 with data := (i2.data.SeekLT key).2 } e := by
        simp only [Iterator.seekLTcore, hlb, hr2]
      rw [this]
      obtain ⟨hci, hcr⟩ := checkLower_spec h3 e hmem
      exact ⟨hci, fun e' he' l hl => ((hcr e' he').2) l hl⟩

/-- `SeekLT` preserves the invariant and respects the lower bound. -/
theorem SeekLT_spec {T : List BlockRec} {L U : Option Nat} {i : Iterator}
    (hwf : wfTable T) (h : BoundsInv T L U i) (key : Nat) :
    BoundsInv T L U (i.SeekLT key).2 ∧
    ∀ e, (i.SeekLT key).1 = some e → ∀ l, L = some l → l ≤ e.1 := by
  rcases herr : i.err with _ | err
  case some =>
    have : i.SeekLT key = (none, i) := by simp only [Iterator.SeekLT, herr]
    rw [this]
    exact ⟨h, by intro e he; simp at he⟩
  obtain ⟨p1, v1, hsh⟩ := BIter.SeekGE_shape i.index key
  have h1 : BoundsInv T L U { i with index := (i.index.SeekGE key).2, err := none } :=
    inv_err (inv_index h (i.index.SeekGE key).2 (by rw [hsh])) none
  rcases hr1 : (i.index.SeekGE key).1 with _ | e1
  · obtain ⟨p2, v2, hsh2⟩ :=
      BIter.Last_shape ({ i with index := (i.index.SeekGE key).2, err := none } : Iterator).index
    have h2 : BoundsInv T L U
        { i with index := (({ i with index := (i.index.SeekGE key).2, err := none } :
            Iterator).index.Last).2, err := none } := by
      have := inv_index h1 (({ i with index := (i.index.SeekGE key).2, err := none } :
          Iterator).index.Last).2 (by rw [hsh2])
      exact this
    have : i.SeekLT key =
        Iterator.seekLTcore
          { i with index := (({ i with index := (i.index.SeekGE key).2, err := none } :
              Iterator).index.Last).2, err := none } key := by
      simp only [Iterator.SeekLT, herr, hr1]
    rw [this]
    exact seekLTcore_spec hwf h2 key
  · have : i.SeekLT key =
        Iterator.seekLTcore { i with index := (i.index.SeekGE key).2, err := none } key := by
      simp only [Iterator.SeekLT, herr, hr1]
    rw [this]
    exact seekLTcore_spec hwf h1 key

/-- `SeekGE` preserves the invariant and respects the upper bound. -/
theorem SeekGE_spec {T : List BlockRec} {L U : Option Nat} {i : Iterator}
    (hwf : wfTable T) (h : BoundsInv T L U i) (key : Nat) :
    BoundsInv T L U (i.SeekGE key).2 ∧
    ∀ e, (i.SeekGE key).1 = some e → ∀ u, U = some u → e.1 < u := by
  rcases herr : i.err with _ | err
  · have : i.SeekGE key = i.seekGEcore key := by simp only [Iterator.SeekGE, herr]
    rw [this]
    exact seekGEcore_spec hwf h key
  · have : i.SeekGE key = (none, i) := by simp only [Iterator.SeekGE, herr]
    rw [this]
    exact ⟨h, by intro e he; simp at he⟩

/-- `SeekPrefixGE` preserves the invariant and respects the upper bound. -/
theorem SeekPrefixGE_spec {T : List BlockRec} {L U : Option Nat} {i : Iterator}
    (hwf : wfTable T) (h : BoundsInv T L U i) (pfx key : Nat) :
    BoundsInv T L U (i.SeekPrefixGE pfx key).2 ∧
    ∀ e, (i.SeekPrefixGE pfx key).1 = some e → ∀ u, U = some u → e.1 < u := by
  rcases herr : i.err with _ | err
  case some =>
    have : i.SeekPrefixGE pfx key = (none, i) := by simp only [Iterator.SeekPrefixGE, herr]
    rw [this]
    exact ⟨h, by intro e he; simp at he⟩
  rcases hf : i.tFilter with _ | fr
  · have : i.SeekPrefixGE pfx key = i.seekGEcore key := by
      simp only [Iterator.SeekPrefixGE, herr, hf]
    rw [this]
    exact seekGEcore_spec hwf h key
  · rcases fr with e | mayContain
    · have : i.SeekPrefixGE pfx key = (none, i) := by
        simp only [Iterator.SeekPrefixGE, herr, hf]
      rw [this]
      exact ⟨h, by intro e he; simp at he⟩
    · by_cases hmc : mayContain pfx
      · have : i.SeekPrefixGE pfx key = i.seekGEcore key := by
          simp [Iterator.SeekPrefixGE, herr, hf, hmc]
        rw [this]
        exact seekGEcore_spec hwf h key
      · have : i.SeekPrefixGE pfx key =
            (none, { i with data := i.data.invalidateUpper }) := by
          simp [Iterator.SeekPrefixGE, herr, hf, hmc]
        rw [this]
        exact ⟨inv_data h _ rfl, by intro e he; simp at he⟩

/-- Any positioning call preserves the invariant, and its returned entry
respects whichever global bound the op checks. -/
theorem applyOp_spec {T : List BlockRec} {L U : Option Nat} {i : Iterator}
    (hwf : wfTable T) (h : BoundsInv T L U i) (op : Op) :
    BoundsInv T L U (applyOp op i).2 ∧
    ∀ e, (applyOp op i).1 = some e →
      (checksLower op = true → ∀ l, L = some l → l ≤ e.1) ∧
      (checksUpper op = true → ∀ u, U = some u → e.1 < u) := by
  cases op with
  | seekGE k =>
    obtain ⟨hi, hr⟩ := SeekGE_spec hwf h k
    exact ⟨hi, fun e he => ⟨(by intro hc; cases hc), fun _ => hr e he⟩⟩
  | seekPrefixGE p k =>
    obtain ⟨hi, hr⟩ := SeekPrefixGE_spec hwf h p k
    exact ⟨hi, fun e he => ⟨(by intro hc; cases hc), fun _ => hr e he⟩⟩
  | seekLT k =>
    obtain ⟨hi, hr⟩ := SeekLT_spec hwf h k
    exact ⟨hi, fun e he => ⟨fun _ => hr e he, (by intro hc; cases hc)⟩⟩
  | first =>
    obtain ⟨hi, hr⟩ := First_spec hwf h
    exact ⟨hi, fun e he => ⟨(by intro hc; cases hc), fun _ => hr e he⟩⟩
  | last =>
    obtain ⟨hi, hr⟩ := Last_spec hwf h
    exact ⟨hi, fun e he => ⟨fun _ => hr e he, (by intro hc; cases hc)⟩⟩
  | next =>
    obtain ⟨hi, hr⟩ := Next_spec hwf h
    exact ⟨hi, fun e he => ⟨(by intro hc; cases hc), fun _ => hr e he⟩⟩
  | prev =>
    obtain ⟨hi, hr⟩ := Prev_spec hwf h
    exact ⟨hi, fun e he => ⟨fun _ => hr e he, (by intro hc; cases hc)⟩⟩

/-- Running any sequence of positioning calls from an invariant state
yields only bound-respecting results. -/
theorem runOps_spec {T : List BlockRec} {L U : Option Nat} (hwf : wfTable T) :
    ∀ (ops : List Op) (i : Iterator), BoundsInv T L U i →
      ∀ pr ∈ (runOps ops i).1, ∀ e, pr.2 = some e →
        (checksLower pr.1 = true → ∀ l, L = some l → l ≤ e.1) ∧
        (checksUpper pr.1 = true → ∀ u, U = some u → e.1 < u) := by
  intro ops
  induction ops with
  | nil =>
    intro i h pr hpr
    simp [runOps] at hpr
  | cons op rest ih =>
    intro i h pr hpr e he
    obtain ⟨hinv, hres⟩ := applyOp_spec hwf h op
    simp only [runOps, List.mem_cons] at hpr
    rcases hpr with hpr | hpr
    · subst hpr
      exact hres e he
    · exact ih (applyOp op i).2 hinv pr hpr e he

/-- The bounds invariant holds immediately after `Init` on a fresh
reader. -/
theorem init_inv (T : List BlockRec) (L U : Option Nat)
    (fl : Option (Except String (Nat → Bool))) :
    BoundsInv T L U (Reader.NewIter { table := T, tFilter := fl } L U) := by
  refine ⟨rfl, rfl, rfl, rfl, ?_, ?_, ?_, ?_⟩ <;>
    simp [Reader.NewIter, Iterator.Init]

/-- C3: for an iterator created with bounds `lower = L` (inclusive) and
`upper = U` (exclusive) on a well-formed table, no operation of any call
sequence returns a key below `L` (for the lower-checking ops `SeekLT`,
`Last`, `Prev`) or at/above `U` (for the upper-checking ops `SeekGE`,
`SeekPrefixGE`, `First`, `Next`) — including when the per-block bounds
have been suppressed to nil by `initBounds`. -/
theorem iterator_bounds_honored (T : List BlockRec) (L U : Option Nat)
    (fl : Option (Except String (Nat → Bool))) (hwf : wfTable T) (ops : List Op) :
    ∀ pr ∈ (runOps ops (Reader.NewIter { table := T, tFilter := fl } L U)).1,
      ∀ k v, pr.2 = some (k, v) →
        (checksLower pr.1 = true → ∀ l, L = some l → ¬ k < l) ∧
        (checksUpper pr.1 = true → ∀ u, U = some u → ¬ u ≤ k) := by
  intro pr hpr k v he
  obtain ⟨hlo, hup⟩ := runOps_spec hwf ops _ (init_inv T L U fl) pr hpr (k, v) he
  refine ⟨?_, ?_⟩
  · intro hc l hl
    have := hlo hc l hl
    omega
  · intro hc u hu
    have := hup hc u hu
    omega

/-- Witness for C3 on the spec's E2 table with bounds `[3, 7)`: a short
forward scan plus backward ops, all respecting the bounds. -/
theorem iterator_bounds_honored_witness :
    wfTable T3 ∧
    ((runOps [Op.seekGE 0, Op.next, Op.next, Op.next, Op.last, Op.seekLT 9]
        (Reader.NewIter { table := T3, tFilter := none } (some 3) (some 7))).1.map
      Prod.snd = [some (1, 10), some (2, 20), some (4, 40), some (5, 50),
        some (8, 80), some (8, 80)]) ∧
    ∀ pr ∈ (runOps [Op.seekGE 0, Op.next, Op.next, Op.next, Op.last, Op.seekLT 9]
        (Reader.NewIter { table := T3, tFilter := none } (some 3) (some 7))).1,
      ∀ k v, pr.2 = some (k, v) →
        (checksLower pr.1 = true → ∀ l, (some 3 : Option Nat) = some l → ¬ k < l) ∧
        (checksUpper pr.1 = true → ∀ u, (some 7 : Option Nat) = some u → ¬ u ≤ k) := by
  refine ⟨by decide, by decide, ?_⟩
  intro pr hpr k v he
  exact iterator_bounds_honored T3 (some 3) (some 7) none (by decide) _ pr hpr k v he

/-! ### Claim theorems -/

/-- C1: the claim asserts that `SeekGE(q)` always returns the least key
`≥ q`, "including when `q` equals an index separator or falls strictly
between two blocks".  The code violates this: on the spec's own E2 table
(`T3`), the query `3` equals the first block's separator, which lies
strictly between the block's last key `2` and the next block's first key
`4`; `index.SeekGE` lands on the first block, `data.SeekGE` finds nothing
there, and `SeekGE` returns `(nil, nil)` without stepping to the next
block — while the least key `≥ 3` is `4`. -/
theorem seekGE_separator_divergence :
    wfTable T3 ∧
    ((Reader.NewIter { table := T3 } none none).SeekGE 3).1 = none ∧
    leastGE T3 3 = some (4, 40) := by
  refine ⟨by decide, ?_, by decide⟩
  decide

/-- C6: the claim asserts `decodeBlockHandle` returns the zero handle and
length 0 for every malformed varint, including 64-bit overflow.  The code
only checks for a byte count of `0`; `binary.Uvarint` reports overflow
with a *negative* count, so an overflowing second varint yields
`(BlockHandle{5,0}, -10)` (neither the zero handle nor 0), and an
overflowing first varint makes `src[n:]` panic (modelled as `none`).  The
truncated-varint case the claim also covers does behave as stated (third
conjunct). -/
theorem decodeBlockHandle_overflow_divergence :
    decodeBlockHandle (5 :: List.replicate 11 128) = some (⟨5, 0⟩, -10) ∧
    decodeBlockHandle (List.replicate 11 128) = none ∧
    decodeBlockHandle [128] = some (⟨0, 0⟩, 0) := by
  decide

set_option maxHeartbeats 1000000 in
/-- C2: for a well-formed table with no bounds set, `SeekLT(q)` returns the
entry with the greatest key strictly below `q` (or nothing when no key is
below `q`), for every query key; in particular the between-blocks
step-back to the previous block's last key is taken when the query falls
at or before the first key of the landed block. -/
theorem seekLT_correct (T : List BlockRec) (q : Nat) (i : Iterator)
    (hwf : wfTable T)
    (htab : i.table = T) (hidx : i.index.entries = idxOf T)
    (herr : i.err = none) (hl : i.lower = none) (hu : i.upper = none)
    (hbl : i.blockLower = none) :
    IsGreatestLT T q (i.SeekLT q).1 := by
  rcases hfind : (idxOf T).findIdx? (fun e => decide (q ≤ e.1)) with _ | p
  · -- Case A: every separator < q
    by_cases hT : T = []
    · subst hT
      simp [Iterator.SeekLT, Iterator.seekLTcore, herr, BIter.SeekGE, hidx, hfind, BIter.Last,
        Iterator.loadBlock, idxOf, IsGreatestLT, allEntries]
    · -- nonempty table, all separators < q: land on the last block
      have hTlen : 0 < T.length := List.length_pos.mpr hT
      have hmlt : T.length - 1 < T.length := by omega
      have hblk : T[T.length - 1]? = some ((getElem T (T.length - 1) hmlt)) :=
        List.getElem?_eq_getElem hmlt
      have hseps : ∀ j (hj : j < T.length), ((getElem T (j) hj)).sep < q := by
        intro j hj
        have hmem : (((getElem T (j) hj)).sep, j) ∈ idxOf T := by
          rw [List.mem_iff_getElem?]
          exact ⟨j, by simp [idxOf_getElem?, List.getElem?_eq_getElem hj]⟩
        have := List.findIdx?_eq_none_iff.mp hfind _ hmem
        simpa using this
      have hkeys : ∀ (f : Nat × Nat), f ∈ allEntries T → f.1 < q := by
        intro f hf
        obtain ⟨r, br, hr, hbr, hfbr⟩ := allEntries_cases hf
        have h1 : f.1 ≤ br.sep := hwf.2.2.1 br (hbr ▸ List.getElem_mem hr) f hfbr
        have h2 := hseps r hr
        rw [hbr] at h2
        omega
      have hlast_mem : (getElem T (T.length - 1) hmlt) ∈ T := List.getElem_mem hmlt
      have hlast_ne := hwf.1 _ hlast_mem
      have hlen0 : 0 < ((getElem T (T.length - 1) hmlt)).entries.length := List.length_pos.mpr hlast_ne
      have htw : (((getElem T (T.length - 1) hmlt)).entries.takeWhile (fun e => decide (e.1 < q)))
          = ((getElem T (T.length - 1) hmlt)).entries := by
        rw [List.takeWhile_eq_self_iff]
        intro e he
        simpa using hkeys e (mem_allEntries hlast_mem he)
      have hempty : (idxOf T).isEmpty = false := by
        rw [List.isEmpty_eq_false]
        intro h
        have hlen := idxOf_length T
        rw [h] at hlen
        simp only [List.length_nil] at hlen
        have hzero : T.length = 0 := by omega
        exact hT (List.length_eq_zero.mp hzero)
      have hgl : ((getElem T (T.length - 1) hmlt)).entries[((getElem T (T.length - 1) hmlt)).entries.length - 1]? =
          some ((getElem ((getElem T (T.length - 1) hmlt)).entries (((getElem T (T.length - 1) hmlt)).entries.length - 1) (by omega))) :=
        List.getElem?_eq_getElem (by omega)
      have hres : (i.SeekLT q).1 =
          some ((getElem ((getElem T (T.length - 1) hmlt)).entries (((getElem T (T.length - 1) hmlt)).entries.length - 1) (by omega))) := by
        simp [Iterator.SeekLT, Iterator.seekLTcore, herr, BIter.SeekGE, hidx, hfind, BIter.Last, hempty,
          idxOf_length, Iterator.loadBlock, BIter.Key, idxOf_getElem?, hblk, htab,
          Iterator.initBounds, hl, hu, BIter.SeekLT, htw, Nat.pos_iff_ne_zero.mp hlen0,
          Iterator.checkLower, hbl, hgl]
      rw [hres]
      refine ⟨mem_allEntries hlast_mem (List.getElem_mem _), ?_, ?_⟩
      · exact hkeys _ (mem_allEntries hlast_mem (List.getElem_mem _))
      · intro f hf hfq
        obtain ⟨r, br, hr, hbr, hfbr⟩ := allEntries_cases hf
        rcases Nat.lt_or_ge r (T.length - 1) with hrm | hrm
        · exact le_of_lt (pairwise_cross hwf hrm hmlt (hbr ▸ hfbr) (List.getElem_mem _))
        · have hrm2 : r = T.length - 1 := by omega
          subst hrm2
          have hbr2 : br = (getElem T (T.length - 1) hmlt) := hbr.symm
          subst hbr2
          obtain ⟨j, hj, rfl⟩ := List.mem_iff_getElem.mp hfbr
          exact within_le (hwf.2.1 _ hlast_mem) (by omega) (by omega)
  · -- Case B: first separator ≥ q is at index p
    have hfi := List.findIdx?_eq_some_iff_findIdx_eq.mp hfind
    have hplen : p < T.length := by
      have := hfi.1
      rwa [idxOf_length] at this
    have hblkp : T[p]? = some ((getElem T (p) hplen)) := List.getElem?_eq_getElem hplen
    have hpmem : (getElem T (p) hplen) ∈ T := List.getElem_mem hplen
    have hqsep : q ≤ ((getElem T (p) hplen)).sep := by
      have hw : List.findIdx (fun e => decide (q ≤ e.1)) (idxOf T) < (idxOf T).length := by
        rw [hfi.2, idxOf_length]; exact hplen
      have hpr := List.findIdx_getElem (w := hw)
      have h2 : (idxOf T)[p]? =
          some ((getElem (idxOf T) (List.findIdx (fun e => decide (q ≤ e.1)) (idxOf T)) hw)) := by
        rw [← hfi.2]
        exact List.getElem?_eq_getElem hw
      rw [idxOf_getElem?, hblkp] at h2
      simp only [Option.map_some', Option.some.injEq] at h2
      rw [← h2] at hpr
      simpa using hpr
    have hsepsj : ∀ j (hj : j < p), ((getElem T (j) (hj.trans hplen))).sep < q := by
      intro j hj
      have hidxw : j < (idxOf T).length := by rw [idxOf_length]; exact hj.trans hplen
      have := @List.not_of_lt_findIdx _ (fun e => decide (q ≤ e.1)) (idxOf T) j
        (by rw [hfi.2]; exact hj)
      rw [idxOf_getElem T j (hj.trans hplen)] at this
      simpa using this
    -- keys strictly after block p are ≥ q
    have hmono_ge : ∀ (r : Nat) (hr : r < T.length), p < r →
        ∀ f ∈ ((getElem T (r) hr)).entries, q ≤ f.1 := by
      intro r hr hpr f hfr
      have hp1 : p + 1 < T.length := by omega
      have hne1 : ((getElem T (p + 1) hp1)).entries ≠ [] := hwf.1 _ (List.getElem_mem hp1)
      have h01 : 0 < ((getElem T (p + 1) hp1)).entries.length := List.length_pos.mpr hne1
      have hfirst := sep_lt_next_first hwf hp1 hne1
      rcases Nat.eq_or_lt_of_le (Nat.succ_le_of_lt hpr) with hr1 | hr1
      · -- r = p + 1
        have hfle : ((getElem ((getElem T (p + 1) hp1)).entries (0) h01)).1 ≤ f.1 := by
          apply first_le (hwf.2.1 _ (List.getElem_mem hp1)) _ h01
          have : r = p + 1 := hr1.symm
          subst this
          exact hfr
        omega
      · -- p + 1 < r
        have hcross := pairwise_cross hwf hr1 hr (List.getElem_mem h01) hfr
        omega
    rcases Nat.eq_zero_or_pos (((getElem T (p) hplen)).entries.takeWhile
        (fun e => decide (e.1 < q))).length with hn0 | hn0
    · -- B2: no key of block p is < q
      have hbpge : ∀ f ∈ ((getElem T (p) hplen)).entries, q ≤ f.1 := by
        intro f hf
        have hne0 := hwf.1 _ hpmem
        have h00 : 0 < ((getElem T (p) hplen)).entries.length := List.length_pos.mpr hne0
        have hstop := takeWhile_stop (fun e => decide (e.1 < q)) ((getElem T (p) hplen)).entries
          (x := (getElem ((getElem T (p) hplen)).entries (0) h00))
          (by rw [hn0]; exact List.getElem?_eq_getElem h00)
        have hfst : q ≤ ((getElem ((getElem T (p) hplen)).entries (0) h00)).1 := by simpa using hstop
        have := first_le (hwf.2.1 _ hpmem) hf h00
        omega
      have hge : ∀ f ∈ allEntries T, q ≤ f.1 ∨ f.1 < q ∧ ∃ r : Nat, ∃ hr : r < T.length,
          r < p ∧ f ∈ ((getElem T (r) hr)).entries := by
        intro f hf
        obtain ⟨r, br, hr, hbr, hfbr⟩ := allEntries_cases hf
        have hbr2 : br = (getElem T (r) hr) := hbr.symm
        subst hbr2
        rcases Nat.lt_trichotomy r p with h | h | h
        · rcases Nat.lt_or_ge f.1 q with hlt | hge
          · exact Or.inr ⟨hlt, r, hr, h, hfbr⟩
          · exact Or.inl hge
        · subst h
          exact Or.inl (hbpge f hfbr)
        · exact Or.inl (hmono_ge r hr h f hfbr)
      rcases Nat.eq_zero_or_pos p with hp0 | hp0
      · -- B2a: p = 0, nothing before block 0
        subst hp0
        have hres : (i.SeekLT q).1 = none := by
          simp [Iterator.SeekLT, Iterator.seekLTcore, herr, BIter.SeekGE, hidx, hfind, Iterator.loadBlock,
            BIter.Key, idxOf_getElem?, hblkp, htab, Iterator.initBounds, hl, hu,
            BIter.SeekLT, hn0, BIter.Prev]
        rw [hres]
        intro f hf
        rcases hge f hf with h | ⟨_, r, hr, hrp, _⟩
        · omega
        · omega
      · -- B2b: step back to block p-1 and take its last entry
        have hq1 : p - 1 < T.length := by omega
        have hblkq : T[p - 1]? = some ((getElem T (p - 1) hq1)) := List.getElem?_eq_getElem hq1
        have hqmem : (getElem T (p - 1) hq1) ∈ T := List.getElem_mem hq1
        have hqne := hwf.1 _ hqmem
        have hq0 : 0 < ((getElem T (p - 1) hq1)).entries.length := List.length_pos.mpr hqne
        have hglq : ((getElem T (p - 1) hq1)).entries[((getElem T (p - 1) hq1)).entries.length - 1]? =
            some ((getElem ((getElem T (p - 1) hq1)).entries (((getElem T (p - 1) hq1)).entries.length - 1) (by omega))) :=
          List.getElem?_eq_getElem (by omega)
        have hres : (i.SeekLT q).1 =
            some ((getElem ((getElem T (p - 1) hq1)).entries (((getElem T (p - 1) hq1)).entries.length - 1) (by omega))) := by
          simp [Iterator.SeekLT, Iterator.seekLTcore, herr, BIter.SeekGE, hidx, hfind, Iterator.loadBlock,
            BIter.Key, idxOf_getElem?, hblkp, htab, Iterator.initBounds, hl, hu,
            BIter.SeekLT, hn0, BIter.Prev, Nat.pos_iff_ne_zero.mp hp0, hblkq,
            BIter.Last, List.isEmpty_eq_false.mpr hqne, hglq, Iterator.checkLower, hbl]
        rw [hres]
        refine ⟨mem_allEntries hqmem (List.getElem_mem _), ?_, ?_⟩
        · have hle := hwf.2.2.1 _ hqmem _ (List.getElem_mem (l := ((getElem T (p - 1) hq1)).entries)
            (n := ((getElem T (p - 1) hq1)).entries.length - 1) (by omega))
          have := hsepsj (p - 1) (by omega)
          omega
        · intro f hf hfq
          rcases hge f hf with h | ⟨_, r, hr, hrp, hfr⟩
          · omega
          · rcases Nat.lt_or_ge r (p - 1) with hrq | hrq
            · exact le_of_lt (pairwise_cross hwf hrq hq1 hfr (List.getElem_mem _))
            · have hrq2 : r = p - 1 := by omega
              subst hrq2
              obtain ⟨j, hj, rfl⟩ := List.mem_iff_getElem.mp hfr
              exact within_le (hwf.2.1 _ hqmem) (by omega) (by omega)
    · -- B1: block p holds keys < q; take the last of them
      have hnle := takeWhile_len_le (fun e => decide (e.1 < q)) ((getElem T (p) hplen)).entries
      have hglp : ((getElem T (p) hplen)).entries[(((getElem T (p) hplen)).entries.takeWhile
            (fun e => decide (e.1 < q))).length - 1]? =
          some ((getElem ((getElem T (p) hplen)).entries ((((getElem T (p) hplen)).entries.takeWhile
            (fun e => decide (e.1 < q))).length - 1) (by omega))) :=
        List.getElem?_eq_getElem (by omega)
      have hres : (i.SeekLT q).1 =
          some ((getElem ((getElem T (p) hplen)).entries ((((getElem T (p) hplen)).entries.takeWhile
            (fun e => decide (e.1 < q))).length - 1) (by omega))) := by
        simp [Iterator.SeekLT, Iterator.seekLTcore, herr, BIter.SeekGE, hidx, hfind, Iterator.loadBlock,
          BIter.Key, idxOf_getElem?, hblkp, htab, Iterator.initBounds, hl, hu,
          BIter.SeekLT, Nat.pos_iff_ne_zero.mp hn0, hglp, Iterator.checkLower, hbl]
      rw [hres]
      have hepred : ((getElem ((getElem T (p) hplen)).entries ((((getElem T (p) hplen)).entries.takeWhile
            (fun e => decide (e.1 < q))).length - 1) (by omega))).1 < q := by
        have := takeWhile_pred (fun e => decide (e.1 < q)) ((getElem T (p) hplen)).entries
          (j := (((getElem T (p) hplen)).entries.takeWhile (fun e => decide (e.1 < q))).length - 1)
          (by omega)
        simpa using this
      refine ⟨mem_allEntries hpmem (List.getElem_mem _), hepred, ?_⟩
      intro f hf hfq
      obtain ⟨r, br, hr, hbr, hfbr⟩ := allEntries_cases hf
      have hbr2 : br = (getElem T (r) hr) := hbr.symm
      subst hbr2
      rcases Nat.lt_trichotomy r p with h | h | h
      · exact le_of_lt (pairwise_cross hwf h hplen hfbr (List.getElem_mem _))
      · subst h
        obtain ⟨j, hj, rfl⟩ := List.mem_iff_getElem.mp hfbr
        rcases Nat.lt_or_ge j (((getElem T (r) hr)).entries.takeWhile
            (fun e => decide (e.1 < q))).length with hjn | hjn
        · exact within_le (hwf.2.1 _ hpmem) (by omega) (by omega)
        · -- impossible: entries at or past the takeWhile stop are ≥ q
          have hnlt : (((getElem T (r) hr)).entries.takeWhile
              (fun e => decide (e.1 < q))).length < ((getElem T (r) hr)).entries.length := by omega
          have hstop := takeWhile_stop (fun e => decide (e.1 < q)) ((getElem T (r) hr)).entries
            (x := (getElem ((getElem T (r) hr)).entries ((((getElem T (r) hr)).entries.takeWhile
              (fun e => decide (e.1 < q))).length) hnlt))
            (List.getElem?_eq_getElem hnlt)
          have hge2 : q ≤ ((getElem ((getElem T (r) hr)).entries ((((getElem T (r) hr)).entries.takeWhile
              (fun e => decide (e.1 < q))).length) hnlt)).1 := by simpa using hstop
          have hmon := within_le (hwf.2.1 _ hpmem) hjn hj
          omega
      · have := hmono_ge r hr h _ hfbr
        omega

/-- Witness for C2 on the spec's E2 table: `SeekLT(3)` (the separator
between the first two blocks) steps back and yields the previous block's
last entry `(2, 20)`. -/
theorem seekLT_correct_witness :
    wfTable T3 ∧
    IsGreatestLT T3 3 ((Reader.NewIter { table := T3 } none none).SeekLT 3).1 ∧
    ((Reader.NewIter { table := T3 } none none).SeekLT 3).1 = some (2, 20) :=
  ⟨by decide,
   seekLT_correct T3 3 _ (by decide) rfl rfl rfl rfl rfl rfl,
   by decide⟩

/-- C4: once `i.err` is set, every public positioning method returns
`(nil, nil)` without changing any iterator state; and when the data
cursor is exhausted with a pending `data.err`, `Next` and `Prev` promote
it into `i.err` and return `(nil, nil)`. -/
theorem iterator_sticky_error :
    (∀ (op : Op) (i : Iterator) (e : String),
       i.err = some e → applyOp op i = (none, i)) ∧
    (∀ (i : Iterator) (e : String),
       i.err = none → i.data.valid = false → i.data.err = some e →
       i.Next.1 = none ∧ i.Next.2.err = some e) ∧
    (∀ (i : Iterator) (e : String),
       i.err = none → i.data.valid = false → i.data.err = some e →
       i.Prev.1 = none ∧ i.Prev.2.err = some e) := by
  refine ⟨applyOp_err, ?_, ?_⟩
  · intro i e h hv hd
    simp [Iterator.Next, Iterator.nextLoop, BIter.Next, h, hv, hd]
  · intro i e h hv hd
    simp [Iterator.Prev, Iterator.prevLoop, BIter.Prev, h, hv, hd]

/-- Witness for C4 at a concrete state. -/
theorem iterator_sticky_error_witness :
    (({ err := some "boom" } : Iterator).err = some "boom" ∧
      applyOp Op.first { err := some "boom" } = (none, { err := some "boom" })) ∧
    (({ data := { err := some "bad block" } } : Iterator).Next.2.err = some "bad block") := by
  refine ⟨⟨rfl, iterator_sticky_error.1 Op.first _ "boom" rfl⟩, ?_⟩
  exact (iterator_sticky_error.2.1 { data := { err := some "bad block" } }
    "bad block" rfl rfl rfl).2

/-- C8: when a table filter is configured and `mayContain` answers `false`
on the prefix, `SeekPrefixGE` returns `(nil, nil)` and invalidates the
data cursor, touching neither the index cursor nor the loaded block, for
every prefix and key (the filter sees only the prefix). -/
theorem seekPrefixGE_filter_negative (i : Iterator) (f : Nat → Bool) (pfx key : Nat)
    (herr : i.err = none) (hf : i.tFilter = some (Except.ok f))
    (hneg : f pfx = false) :
    (i.SeekPrefixGE pfx key).1 = none ∧
    (i.SeekPrefixGE pfx key).2 = { i with data := i.data.invalidateUpper } ∧
    (i.SeekPrefixGE pfx key).2.Valid = false ∧
    (i.SeekPrefixGE pfx key).2.index = i.index ∧
    (i.SeekPrefixGE pfx key).2.data.entries = i.data.entries := by
  simp [Iterator.SeekPrefixGE, herr, hf, hneg, Iterator.Valid, BIter.invalidateUpper]

/-- Witness for C8 at a concrete state. -/
theorem seekPrefixGE_filter_negative_witness :
    (({ tFilter := some (Except.ok (fun _ => false)),
        data := { entries := [(1, 10)], valid := true } } : Iterator).SeekPrefixGE 7 9).1
      = none := by
  exact (seekPrefixGE_filter_negative _ (fun _ => false) 7 9 rfl rfl rfl).1

/-- C10: `SetBounds` replaces only the global bounds; the per-block bounds
survive unchanged, `initBounds` returns without clearing them when both
global bounds are nil, and a stale `blockUpper` keeps filtering keys of
the current block through `Next` even after `SetBounds(nil, nil)`. -/
theorem setBounds_frame (i : Iterator) (l u : Option Nat) :
    i.SetBounds l u = { i with lower := l, upper := u } ∧
    (i.SetBounds l u).blockLower = i.blockLower ∧
    (i.SetBounds l u).blockUpper = i.blockUpper ∧
    (∀ j : Iterator, j.lower = none → j.upper = none → j.initBounds = j) ∧
    (∀ (u' k v : Nat) (d : BIter),
       i.err = none → i.blockUpper = some u' →
       i.data.Next = (some (k, v), d) → u' ≤ k →
       ((i.SetBounds none none).Next).1 = none) := by
  refine ⟨rfl, rfl, rfl, ?_, ?_⟩
  · intro j hl hu
    simp [Iterator.initBounds, hl, hu]
  · intro u' k v d herr hbu hnext hk
    simp [Iterator.Next, Iterator.SetBounds, herr, hnext, Iterator.checkUpper, hbu, hk]

/-- Witness for C10 at a concrete state: stale `blockUpper = 5` still
filters the key `7` of the current block after `SetBounds(nil, nil)`. -/
theorem setBounds_frame_witness :
    ((Iterator.SetBounds
        { blockUpper := some 5
          data := { entries := [(3, 30), (7, 70)], pos := 0, valid := true } }
        none none).Next).1 = none := by
  exact (setBounds_frame
    { blockUpper := some 5
      data := { entries := [(3, 30), (7, 70)], pos := 0, valid := true } } none none).2.2.2.2
    5 7 70 { entries := [(3, 30), (7, 70)], pos := 1, valid := true } rfl rfl rfl
    (by decide)

/-- C5: on a cache miss, `readBlock` fails with the checksum-mismatch
error whenever the computed CRC32C differs from the little-endian u32 in
the trailer; with a matching checksum but a compression-type byte other
than 0 or 1 it fails with the unknown-compression error; in both cases
nothing is inserted into the block cache. -/
theorem readBlock_corruption_errors (crcFn : List Nat → Nat)
    (snappy : List Nat → Except String (List Nat))
    (tr : Option (List Nat → Except String (List Nat)))
    (file : Nat → Nat) (c : BCache) (bh : BlockHandle)
    (hmiss : c.Get bh.Offset = none) :
    (crcFn ((readBuf file bh).take (bh.Length + 1)) ≠
        le32 ((readBuf file bh).drop (bh.Length + 1)) →
      readBlock crcFn snappy tr file c bh =
        (Except.error "pebble/table: invalid table (checksum mismatch)", c)) ∧
    (∀ t : Nat,
      crcFn ((readBuf file bh).take (bh.Length + 1)) =
        le32 ((readBuf file bh).drop (bh.Length + 1)) →
      (readBuf file bh).getD bh.Length 0 = t → t ≠ 0 → t ≠ 1 →
      readBlock crcFn snappy tr file c bh =
        (Except.error ("pebble/table: unknown block compression: " ++ toString t), c)) := by
  constructor
  · intro hne
    simp [readBlock, hmiss, hne.symm]
  · intro t hcrc htyp ht0 ht1
    simp only [List.getD, List.get?_eq_getElem?] at htyp
    simp [readBlock, hmiss, hcrc, htyp, noCompressionBlockType,
      snappyCompressionBlockType, ht0, ht1]

/-- Witness for C5: a zero-filled two-byte "block" whose stored CRC (0)
differs from a CRC function returning 1 yields the checksum error; the
same block with a matching CRC but type byte 9 yields the
unknown-compression error. -/
theorem readBlock_corruption_errors_witness :
    readBlock (fun _ => 1) (fun b => Except.ok b) none (fun _ => 0) {} ⟨0, 2⟩ =
      (Except.error "pebble/table: invalid table (checksum mismatch)", {}) ∧
    readBlock (fun _ => 0) (fun b => Except.ok b) none
        (fun j => if j = 2 then 9 else 0) {} ⟨0, 2⟩ =
      (Except.error ("pebble/table: unknown block compression: " ++ toString 9), {}) := by
  constructor
  · exact (readBlock_corruption_errors (fun _ => 1) (fun b => Except.ok b) none
      (fun _ => 0) {} ⟨0, 2⟩ rfl).1 (by decide)
  · exact (readBlock_corruption_errors (fun _ => 0) (fun b => Except.ok b) none
      (fun j => if j = 2 then 9 else 0) {} ⟨0, 2⟩ rfl).2 9 (by decide) (by decide)
      (by decide) (by decide)

/-- C9: after the first successful `Close`, the reader error is the sticky
"reader is closed" error and the file has been closed exactly once (a
second `Close` returns the sticky error without touching the file);
`get` and `Layout` return the sticky error, and an iterator from
`NewIter` (which discards `Init`'s error) has the sticky error, returns
`(nil, nil)` from every positioning call, and surfaces the sticky error
from `Error` and `Close`. -/
theorem reader_close_sticky (r : Reader) (f : VFile) (k : Nat)
    (l u : Option Nat) (op : Op)
    (herr : r.err = none) (hfile : r.file = some f) (hclose : f.closeErr = none) :
    r.Close.1 = none ∧
    r.Close.2.err = some "pebble/table: reader is closed" ∧
    r.Close.2.fileCloses = r.fileCloses + 1 ∧
    r.Close.2.file = none ∧
    r.Close.2.Close.1 = some "pebble/table: reader is closed" ∧
    r.Close.2.Close.2.fileCloses = r.fileCloses + 1 ∧
    r.Close.2.get k = Except.error "pebble/table: reader is closed" ∧
    r.Close.2.Layout = Except.error "pebble/table: reader is closed" ∧
    (r.Close.2.NewIter l u).err = some "pebble/table: reader is closed" ∧
    applyOp op (r.Close.2.NewIter l u) = (none, r.Close.2.NewIter l u) ∧
    (r.Close.2.NewIter l u).Error = some "pebble/table: reader is closed" ∧
    (r.Close.2.NewIter l u).Close = some "pebble/table: reader is closed" := by
  have hc : r.Close =
      (none, { r with err := some "pebble/table: reader is closed", file := none,
                      fileCloses := r.fileCloses + 1 }) := by
    simp [Reader.Close, herr, hfile, hclose]
  rw [hc]
  refine ⟨rfl, rfl, rfl, rfl, by simp [Reader.Close], by simp [Reader.Close],
    by simp [Reader.get], by simp [Reader.Layout], by simp [Reader.NewIter, Iterator.Init],
    ?_, by simp [Reader.NewIter, Iterator.Init, Iterator.Error, BIter.Error],
    by simp [Reader.NewIter, Iterator.Init, Iterator.Close, BIter.Close]⟩
  exact applyOp_err op _ "pebble/table: reader is closed"
    (by simp [Reader.NewIter, Iterator.Init])

/-- Witness for C9 at a concrete reader. -/
theorem reader_close_sticky_witness :
    (({ file := some {}, err := none } : Reader).Close).2.err =
      some "pebble/table: reader is closed" ∧
    (({ file := some {}, err := none } : Reader).Close).2.fileCloses = 1 := by
  refine ⟨(reader_close_sticky { file := some {} } {} 0 none none Op.first
    rfl rfl rfl).2.1, ?_⟩
  exact (reader_close_sticky { file := some {} } {} 0 none none Op.first
    rfl rfl rfl).2.2.1

theorem w64_eq {x : Nat} (h : x < 2 ^ 64) : w64 x = x := Nat.mod_eq_of_lt h

theorem u64sub_eq {a b : Nat} (hle : b ≤ a) (ha : a < 2 ^ 64) :
    u64sub a b = a - b := by
  unfold u64sub
  omega

/-- In a strictly increasing list, every element is at most the last. -/
theorem pairwise_le_getLast {l : List Nat} (hs : l.Pairwise (· < ·))
    {x y : Nat} (hx : l.getLast? = some x) (hy : y ∈ l) : y ≤ x := by
  obtain ⟨n, hn, rfl⟩ := List.mem_iff_getElem.mp hy
  have hlast : x = (getElem l (l.length - 1) (by omega)) := by
    rw [List.getLast?_eq_getElem?] at hx
    rw [List.getElem?_eq_getElem (by omega)] at hx
    exact ((Option.some.injEq _ _).mp hx).symm
  subst hlast
  rcases Nat.lt_or_ge n (l.length - 1) with h | h
  · exact le_of_lt ((List.pairwise_iff_getElem.mp hs) n (l.length - 1) hn (by omega) h)
  · have : n = l.length - 1 := by omega
    subst this
    exact le_refl _

/-- Block offsets grow along the contiguous layout chain. -/
theorem offset_chain :
    ∀ (T : List BlockRec), contigChain T = true →
      ∀ j (hj : j < T.length),
        ((getElem T (j) hj)).bh.Offset = ((getElem T (0) (by omega))).bh.Offset + sumBlocks (T.take j) := by
  intro T
  induction T with
  | nil => intro _ j hj; simp at hj
  | cons a t ih =>
    intro hc j hj
    match j with
    | 0 => simp [sumBlocks]
    | j' + 1 =>
      match t, hj with
      | b :: rest, hj =>
        rw [contigChain] at hc
        have h1 := (Bool.and_eq_true_iff.mp hc).1
        have h2 := (Bool.and_eq_true_iff.mp hc).2
        have hj' : j' < (b :: rest).length := by simpa using hj
        have hih := ih h2 j' hj'
        have hb0 : ((getElem (b :: rest) (0) (by simp))).bh.Offset =
            a.bh.Offset + a.bh.Length + blockTrailerLen := by
          simpa using h1
        simp only [List.getElem_cons_succ]
        rw [hih, hb0]
        simp only [List.getElem_cons_zero, List.take_succ_cons, sumBlocks,
          List.map_cons, List.sum_cons]
        omega

/-- The block at index `j` starts exactly at the summed extent of the
blocks before it. -/
theorem offset_eq_sum_take {T : List BlockRec} (hwf : wfC T) :
    ∀ j (hj : j < T.length), ((getElem T (j) hj)).bh.Offset = sumBlocks (T.take j) := by
  intro j hj
  have h0 : ((getElem T (0) (by omega))).bh.Offset = 0 := by
    have hh := hwf.2.2.2.2.2.2.2.1
    rw [List.head?_eq_getElem?, List.getElem?_eq_getElem (show 0 < T.length by omega)] at hh
    simpa using hh
  have := offset_chain T hwf.2.2.2.2.2.2.2.2.1 j hj
  rw [this, h0, Nat.zero_add]

theorem sumBlocks_take_succ {T : List BlockRec} {j : Nat} (hj : j < T.length) :
    sumBlocks (T.take (j + 1)) =
      sumBlocks (T.take j) + (((getElem T (j) hj)).bh.Length + blockTrailerLen) := by
  have hj' : j < (T.map (fun b => b.bh.Length + blockTrailerLen)).length := by simpa using hj
  rw [sumBlocks, sumBlocks, List.map_take, List.map_take, List.take_succ,
    List.getElem?_eq_getElem hj']
  simp

theorem sumBlocks_take_le (T : List BlockRec) (j : Nat) :
    sumBlocks (T.take j) ≤ sumBlocks T := by
  rw [sumBlocks, sumBlocks, List.map_take]
  conv_rhs => rw [← List.take_append_drop j (T.map (fun b => b.bh.Length + blockTrailerLen))]
  rw [List.sum_append]
  exact Nat.le_add_right _ _

/-- The cumulative charge never exceeds the table's total extent. -/
theorem cum_le_sum {T : List BlockRec} (hwf : wfC T) {j r : Nat}
    (hj : j < T.length) : cum T j r ≤ sumBlocks T := by
  have hoff := offset_eq_sum_take hwf j hj
  have hmem : (getElem T (j) hj) ∈ T := List.getElem_mem hj
  have hgd : T.getD j { sep := 0, entries := [] } = (getElem T (j) hj) := List.getD_eq_getElem T _ hj
  have hstep := sumBlocks_take_succ hj
  have htle := sumBlocks_take_le T (j + 1)
  have hsz := hwf.2.2.2.2.2.2.1 _ hmem
  have hinterp : ((getElem T (j) hj)).offsets.getD r 0 * ((getElem T (j) hj)).bh.Length / ((getElem T (j) hj)).size ≤
      ((getElem T (j) hj)).bh.Length := by
    rcases Nat.eq_zero_or_pos ((getElem T (j) hj)).size with hs0 | hs0
    · simp [hs0]
    · have hodr : ((getElem T (j) hj)).offsets.getD r 0 ≤ ((getElem T (j) hj)).size := by
        rcases hmemo : ((getElem T (j) hj)).offsets.getD r 0 with _ | _
        · omega
        · have hin : ((getElem T (j) hj)).offsets.getD r 0 ∈ ((getElem T (j) hj)).offsets ∨
              ((getElem T (j) hj)).offsets.getD r 0 = 0 := by
            rcases Nat.lt_or_ge r ((getElem T (j) hj)).offsets.length with hlt | hge
            · left
              rw [List.getD_eq_getElem _ _ hlt]
              exact List.getElem_mem hlt
            · right
              rw [List.getD_eq_default]
              omega
          rcases hin with hin | hin
          · have hl := hwf.2.2.2.2.1 _ hmem
            rcases hlast : ((getElem T (j) hj)).offsets.getLast? with _ | o
            · rw [hlast] at hl
              cases hl
            · rw [hlast] at hl
              have ho : o + 4 * (((getElem T (j) hj)).numRestarts + 1) = ((getElem T (j) hj)).size := by
                simpa using hl
              have := pairwise_le_getLast (hwf.2.2.2.1 _ hmem) hlast hin
              omega
          · omega
      calc ((getElem T (j) hj)).offsets.getD r 0 * ((getElem T (j) hj)).bh.Length / ((getElem T (j) hj)).size
          ≤ ((getElem T (j) hj)).size * ((getElem T (j) hj)).bh.Length / ((getElem T (j) hj)).size :=
            Nat.div_le_div_right (Nat.mul_le_mul_right _ hodr)
        _ = ((getElem T (j) hj)).bh.Length := by
            rw [Nat.mul_comm, Nat.mul_div_cancel _ hs0]
  rw [cum, hgd]
  by_cases hlastr : r + 1 = ((getElem T (j) hj)).entries.length
  · rw [if_pos hlastr]
    omega
  · rw [if_neg hlastr]
    omega

/-- Encoding facts for one block of a compaction-well-formed table. -/
theorem block_facts {T : List BlockRec} (hwf : wfC T) {j : Nat} (hj : j < T.length) :
    ∃ o, ((getElem T (j) hj)).offsets.getLast? = some o ∧
      o + 4 * (((getElem T (j) hj)).numRestarts + 1) = ((getElem T (j) hj)).size ∧
      ((getElem T (j) hj)).offsets.length = ((getElem T (j) hj)).entries.length ∧
      ((getElem T (j) hj)).entries ≠ [] ∧
      0 < ((getElem T (j) hj)).size ∧
      (∀ r, r < ((getElem T (j) hj)).offsets.length → ((getElem T (j) hj)).offsets.getD r 0 ≤ o) ∧
      (∀ r, r + 1 < ((getElem T (j) hj)).offsets.length →
        ((getElem T (j) hj)).offsets.getD r 0 < ((getElem T (j) hj)).offsets.getD (r + 1) 0) ∧
      (∀ r, r < ((getElem T (j) hj)).offsets.length →
        ((getElem T (j) hj)).offsets.getD r 0 * ((getElem T (j) hj)).bh.Length < 2 ^ 64) := by
  have hmem : (getElem T (j) hj) ∈ T := List.getElem_mem hj
  have hl := hwf.2.2.2.2.1 _ hmem
  rcases hlast : ((getElem T (j) hj)).offsets.getLast? with _ | o
  · rw [hlast] at hl
    cases hl
  · rw [hlast] at hl
    have ho : o + 4 * (((getElem T (j) hj)).numRestarts + 1) = ((getElem T (j) hj)).size := by simpa using hl
    have hle : ∀ r, r < ((getElem T (j) hj)).offsets.length → ((getElem T (j) hj)).offsets.getD r 0 ≤ o := by
      intro r hr
      rw [List.getD_eq_getElem _ _ hr]
      exact pairwise_le_getLast (hwf.2.2.2.1 _ hmem) hlast (List.getElem_mem hr)
    refine ⟨o, rfl, ho, hwf.2.2.1 _ hmem, hwf.1.1 _ hmem, by omega, hle, ?_, ?_⟩
    · intro r hr
      rw [List.getD_eq_getElem _ _ (by omega), List.getD_eq_getElem _ _ hr]
      exact (List.pairwise_iff_getElem.mp (hwf.2.2.2.1 _ hmem)) r (r + 1) (by omega) hr
        (by omega)
    · intro r hr
      have h1 := hle r hr
      have h2 := hwf.2.2.2.2.2.2.1 _ hmem
      have : ((getElem T (j) hj)).offsets.getD r 0 * ((getElem T (j) hj)).bh.Length ≤
          ((getElem T (j) hj)).size * ((getElem T (j) hj)).bh.Length :=
        Nat.mul_le_mul_right _ (by omega)
      omega

/-- The block's last-record test fires exactly at the last record. -/
theorem lastTest {T : List BlockRec} (hwf : wfC T) {j : Nat} (hj : j < T.length)
    {r : Nat} (hr : r < ((getElem T (j) hj)).entries.length) :
    (((getElem T (j) hj)).offsets.getD r 0 + 4 * (((getElem T (j) hj)).numRestarts + 1) = ((getElem T (j) hj)).size) ↔
      r + 1 = ((getElem T (j) hj)).entries.length := by
  obtain ⟨o, hlast, ho, holen, hne, hpos, hle, hmono, hfit⟩ := block_facts hwf hj
  have hmem : (getElem T (j) hj) ∈ T := List.getElem_mem hj
  have hrl : r < ((getElem T (j) hj)).offsets.length := by omega
  have holast : o = ((getElem T (j) hj)).offsets.getD (((getElem T (j) hj)).offsets.length - 1) 0 := by
    rw [List.getD_eq_getElem _ _ (by omega)]
    rw [List.getLast?_eq_getElem?] at hlast
    rw [List.getElem?_eq_getElem (by omega)] at hlast
    exact ((Option.some.injEq _ _).mp hlast).symm
  constructor
  · intro heq
    by_contra hne2
    have hrlt : r + 1 < ((getElem T (j) hj)).entries.length := by omega
    have hl1 : ((getElem T (j) hj)).offsets.length - 1 < ((getElem T (j) hj)).offsets.length := by omega
    have hlt : (getElem ((getElem T (j) hj)).offsets (r) hrl) <
        (getElem ((getElem T (j) hj)).offsets (((getElem T (j) hj)).offsets.length - 1) hl1) :=
      (List.pairwise_iff_getElem.mp (hwf.2.2.2.1 _ hmem)) r
        (((getElem T (j) hj)).offsets.length - 1) hrl hl1 (by omega)
    have hgr : ((getElem T (j) hj)).offsets.getD r 0 = (getElem ((getElem T (j) hj)).offsets (r) hrl) :=
      List.getD_eq_getElem _ _ hrl
    have hgl : ((getElem T (j) hj)).offsets.getD (((getElem T (j) hj)).offsets.length - 1) 0 =
        (getElem ((getElem T (j) hj)).offsets (((getElem T (j) hj)).offsets.length - 1) hl1) :=
      List.getD_eq_getElem _ _ hl1
    omega
  · intro heq
    have : r = ((getElem T (j) hj)).offsets.length - 1 := by omega
    rw [this, ← holast]
    exact ho

/-- `compactionIterator.First` on a compaction-well-formed table returns
the first record and establishes the accounting invariant at `(0, 0)`. -/
theorem cFirst_spec {T : List BlockRec} (hwf : wfC T) :
    (∃ e, ((Reader.NewCompactionIter { table := T }).First).1 = some e) ∧
      CInv T 0 0 ((Reader.NewCompactionIter { table := T }).First).2 := by
  have h0 : 0 < T.length := List.length_pos.mpr hwf.2.1
  obtain ⟨b0, hb0⟩ : ∃ b0, T[0]? = some b0 :=
    ⟨(getElem T (0) h0), List.getElem?_eq_getElem h0⟩
  have hb0g : (getElem T (0) h0) = b0 := by
    rw [List.getElem?_eq_getElem h0] at hb0
    exact (Option.some.injEq _ _).mp hb0
  have hmem : b0 ∈ T := List.getElem?_mem hb0
  have hne : b0.entries ≠ [] := hwf.1.1 _ hmem
  have hlen0 : 0 < b0.entries.length := List.length_pos.mpr hne
  obtain ⟨e0, he0⟩ : ∃ e, b0.entries[0]? = some e :=
    ⟨(getElem b0.entries (0) hlen0), List.getElem?_eq_getElem hlen0⟩
  have hidx : (idxOf T)[0]? = some (b0.sep, 0) := by
    rw [idxOf_getElem?, hb0]
    rfl
  have holen : b0.offsets.length = b0.entries.length := hwf.2.2.1 _ hmem
  have hOff : b0.bh.Offset = 0 := by
    have hh := hwf.2.2.2.2.2.2.2.1
    rw [List.head?_eq_getElem?, hb0] at hh
    simpa using hh
  have hcum_lt : cum T 0 0 < 2 ^ 64 :=
    lt_of_le_of_lt (cum_le_sum hwf h0) hwf.2.2.2.2.2.2.2.2.2
  have hf : (Reader.NewCompactionIter { table := T }).it.First =
      (some e0,
       { lower := none, upper := none, blockLower := none, blockUpper := none,
         table := T, tFilter := none,
         index := { entries := idxOf T, pos := 0, valid := true, err := none,
                    offsets := [], numRestarts := 0, size := 0 },
         data := { entries := b0.entries, pos := 0, valid := true, err := none,
                   offsets := b0.offsets, numRestarts := b0.numRestarts,
                   size := b0.size },
         dataBH := b0.bh, err := none }) := by
    simp only [Reader.NewCompactionIter, Iterator.Init, Iterator.First, BIter.First,
      Iterator.loadBlock, BIter.Key, Iterator.initBounds, Iterator.checkUpper,
      hidx, hb0, he0, if_true, reduceIte]
  have hfirst : (Reader.NewCompactionIter { table := T }).First =
      (some e0,
       { it := { lower := none, upper := none, blockLower := none, blockUpper := none,
                 table := T, tFilter := none,
                 index := { entries := idxOf T, pos := 0, valid := true, err := none,
                            offsets := [], numRestarts := 0, size := 0 },
                 data := { entries := b0.entries, pos := 0, valid := true, err := none,
                           offsets := b0.offsets, numRestarts := b0.numRestarts,
                           size := b0.size },
                 dataBH := b0.bh, err := none },
         bytesIterated :=
           w64 (0 + (if b0.offsets.getD 0 0 + 4 * (b0.numRestarts + 1) = b0.size then
                       w64 (blockTrailerLen + b0.bh.Length)
                     else w64 (b0.offsets.getD 0 0 * b0.bh.Length) / b0.size)),
         prevOffset :=
           if b0.offsets.getD 0 0 + 4 * (b0.numRestarts + 1) = b0.size then
             w64 (blockTrailerLen + b0.bh.Length)
           else w64 (b0.offsets.getD 0 0 * b0.bh.Length) / b0.size }) := by
    have hf' := hf
    simp only [Reader.NewCompactionIter] at hf'
    simp only [compactionIterator.First, Reader.NewCompactionIter, hf', BIter.nextOffset]
  have hprev : (if b0.offsets.getD 0 0 + 4 * (b0.numRestarts + 1) = b0.size then
                  w64 (blockTrailerLen + b0.bh.Length)
                else w64 (b0.offsets.getD 0 0 * b0.bh.Length) / b0.size) =
      cum T 0 0 := by
    have hTest := lastTest hwf h0 (r := 0) (by rw [hb0g]; omega)
    rw [hb0g] at hTest
    have hcum : cum T 0 0 =
        if 0 + 1 = b0.entries.length then b0.bh.Offset + b0.bh.Length + blockTrailerLen
        else b0.bh.Offset + b0.offsets.getD 0 0 * b0.bh.Length / b0.size := by
      simp only [cum, List.getD, List.get?_eq_getElem?, hb0, Option.getD_some]
    by_cases ht : b0.offsets.getD 0 0 + 4 * (b0.numRestarts + 1) = b0.size
    · have h1 : 0 + 1 = b0.entries.length := hTest.mp ht
      have hcv : cum T 0 0 = b0.bh.Length + blockTrailerLen := by
        rw [hcum, if_pos h1, hOff]
        omega
      rw [if_pos ht, hcv, w64_eq (by omega)]
      omega
    · have h1 : ¬(0 + 1 = b0.entries.length) := fun hc => ht (hTest.mpr hc)
      rw [if_neg ht, hcum, if_neg h1, hOff]
      obtain ⟨o, _, _, _, _, _, _, _, hfit⟩ := block_facts hwf h0
      rw [hb0g] at hfit
      rw [w64_eq (hfit 0 (by omega))]
      omega
  rw [hfirst]
  refine ⟨⟨e0, rfl⟩, rfl, rfl, rfl, rfl, rfl, rfl, rfl, rfl, rfl, rfl,
    ⟨b0, hb0, rfl, rfl, rfl, rfl, rfl, hlen0⟩, rfl, rfl, ?_, ?_⟩
  · show w64 (0 + _) = cum T 0 0
    rw [hprev, Nat.zero_add, w64_eq hcum_lt]
  · exact hprev

/-- `cum` unfolded at a block known through `getElem?`. -/
theorem cum_eq {T : List BlockRec} {j : Nat} {bj : BlockRec}
    (hbj : T[j]? = some bj) (r : Nat) :
    cum T j r =
      if r + 1 = bj.entries.length then bj.bh.Offset + bj.bh.Length + blockTrailerLen
      else bj.bh.Offset + bj.offsets.getD r 0 * bj.bh.Length / bj.size := by
  simp only [cum, List.getD, List.get?_eq_getElem?, hbj, Option.getD_some]

theorem lt_length_of_getElem? {T : List BlockRec} {j : Nat} {bj : BlockRec}
    (hbj : T[j]? = some bj) : j < T.length := by
  by_contra h
  rw [List.getElem?_eq_none (by omega)] at hbj
  cases hbj

theorem getElem_of_getElem? {T : List BlockRec} {j : Nat} {bj : BlockRec}
    (hbj : T[j]? = some bj) : (getElem T (j) (lt_length_of_getElem? hbj)) = bj := by
  rw [List.getElem?_eq_getElem (lt_length_of_getElem? hbj)] at hbj
  exact (Option.some.injEq _ _).mp hbj

/-- The compaction charge computed by `Next` for record `r` of block `bj`
equals the cumulative charge `cum`. -/
theorem charge_eq_cum {T : List BlockRec} (hwf : wfC T) {j r : Nat} {bj : BlockRec}
    (hbj : T[j]? = some bj) (hr : r < bj.entries.length) :
    (if bj.offsets.getD r 0 + 4 * (bj.numRestarts + 1) = bj.size then
       w64 (bj.bh.Offset + bj.bh.Length + blockTrailerLen)
     else w64 (bj.bh.Offset + w64 (bj.offsets.getD r 0 * bj.bh.Length) / bj.size)) =
      cum T j r := by
  have hj : j < T.length := lt_length_of_getElem? hbj
  have hbg : (getElem T (j) hj) = bj := getElem_of_getElem? hbj
  have hcl : cum T j r < 2 ^ 64 :=
    lt_of_le_of_lt (cum_le_sum hwf hj) hwf.2.2.2.2.2.2.2.2.2
  have hTest := lastTest hwf hj (r := r) (by rw [hbg]; omega)
  rw [hbg] at hTest
  obtain ⟨o, hlast, ho, holen, hne2, hpos, hle, hmono, hfit⟩ := block_facts hwf hj
  rw [hbg] at holen hfit
  by_cases ht : bj.offsets.getD r 0 + 4 * (bj.numRestarts + 1) = bj.size
  · have hv : cum T j r = bj.bh.Offset + bj.bh.Length + blockTrailerLen := by
      rw [cum_eq hbj, if_pos (hTest.mp ht)]
    rw [if_pos ht, hv, w64_eq (by omega)]
  · have h1 : ¬(r + 1 = bj.entries.length) := fun hc => ht (hTest.mpr hc)
    have hprod := hfit r (by omega)
    have hv : cum T j r = bj.bh.Offset + bj.offsets.getD r 0 * bj.bh.Length / bj.size := by
      rw [cum_eq hbj, if_neg h1]
    rw [if_neg ht, w64_eq hprod, w64_eq (by omega)]
    exact hv.symm

/-- Within one block the cumulative charge is monotone. -/
theorem cum_mono_within {T : List BlockRec} (hwf : wfC T) {j r : Nat} {bj : BlockRec}
    (hbj : T[j]? = some bj) (hr : r + 1 < bj.entries.length) :
    cum T j r ≤ cum T j (r + 1) := by
  have hj : j < T.length := lt_length_of_getElem? hbj
  have hbg : (getElem T (j) hj) = bj := getElem_of_getElem? hbj
  obtain ⟨o, hlast, ho, holen, hne2, hpos, hle, hmono, hfit⟩ := block_facts hwf hj
  rw [hbg] at ho holen hle hmono
  have hsz : 0 < bj.size := by rw [← hbg]; exact hpos
  rw [cum_eq hbj r, cum_eq hbj (r + 1), if_neg (by omega)]
  have hdiv_le : bj.offsets.getD r 0 * bj.bh.Length / bj.size ≤ bj.bh.Length := by
    have h1 : bj.offsets.getD r 0 ≤ o := hle r (by omega)
    have h2 : bj.offsets.getD r 0 * bj.bh.Length ≤ bj.size * bj.bh.Length :=
      Nat.mul_le_mul_right _ (by omega)
    calc bj.offsets.getD r 0 * bj.bh.Length / bj.size
        ≤ bj.size * bj.bh.Length / bj.size := Nat.div_le_div_right h2
      _ = bj.bh.Length := Nat.mul_div_cancel_left _ hsz
  by_cases h2 : r + 1 + 1 = bj.entries.length
  · rw [if_pos h2]
    have := blockTrailerLen
    simp only [blockTrailerLen]
    omega
  · rw [if_neg h2]
    have hm : bj.offsets.getD r 0 ≤ bj.offsets.getD (r + 1) 0 :=
      le_of_lt (hmono r (by omega))
    have : bj.offsets.getD r 0 * bj.bh.Length ≤ bj.offsets.getD (r + 1) 0 * bj.bh.Length :=
      Nat.mul_le_mul_right _ hm
    exact Nat.add_le_add_left (Nat.div_le_div_right this) _

/-- Crossing a block boundary the cumulative charge is monotone. -/
theorem cum_mono_cross {T : List BlockRec} (hwf : wfC T) {j r : Nat} {bj b1 : BlockRec}
    (hbj : T[j]? = some bj) (hb1 : T[j + 1]? = some b1)
    (hr : r + 1 = bj.entries.length) :
    cum T j r ≤ cum T (j + 1) 0 := by
  have hj : j < T.length := lt_length_of_getElem? hbj
  have hj1 : j + 1 < T.length := lt_length_of_getElem? hb1
  have hbg : (getElem T (j) hj) = bj := getElem_of_getElem? hbj
  have hbg1 : (getElem T (j + 1) hj1) = b1 := getElem_of_getElem? hb1
  have hoffj : bj.bh.Offset = sumBlocks (T.take j) := by
    rw [← hbg]; exact offset_eq_sum_take hwf j hj
  have hoffj1 : b1.bh.Offset = sumBlocks (T.take (j + 1)) := by
    rw [← hbg1]; exact offset_eq_sum_take hwf (j + 1) hj1
  have hsucc := sumBlocks_take_succ hj
  rw [hbg] at hsucc
  rw [cum_eq hbj r, if_pos hr, cum_eq hb1 0]
  by_cases h2 : 0 + 1 = b1.entries.length
  · rw [if_pos h2]
    omega
  · rw [if_neg h2]
    have heq : bj.bh.Offset + bj.bh.Length + blockTrailerLen = b1.bh.Offset := by omega
    rw [heq]
    exact Nat.le_add_right _ _

/-- At the table's last record the cumulative charge is the table's total
on-disk extent. -/
theorem cum_last {T : List BlockRec} (hwf : wfC T) {j r : Nat} {bj : BlockRec}
    (hbj : T[j]? = some bj) (hr : r + 1 = bj.entries.length)
    (hj1 : j + 1 = T.length) : cum T j r = sumBlocks T := by
  have hj : j < T.length := lt_length_of_getElem? hbj
  have hbg : (getElem T (j) hj) = bj := getElem_of_getElem? hbj
  have hoffj : bj.bh.Offset = sumBlocks (T.take j) := by
    rw [← hbg]; exact offset_eq_sum_take hwf j hj
  have hsucc := sumBlocks_take_succ hj
  rw [hbg] at hsucc
  have htk : T.take (j + 1) = T := List.take_of_length_le (by omega)
  rw [htk] at hsucc
  rw [cum_eq hbj r, if_pos hr]
  omega

/-- The number of records of the table. -/
theorem allEntries_length (T : List BlockRec) :
    (allEntries T).length = (T.map (fun b => b.entries.length)).sum := by
  simp [allEntries, List.length_flatten, Function.comp_def]

/-- A record count decomposition: the tail of the table at `j`. -/
theorem drop_cons {T : List BlockRec} {j : Nat} {bj : BlockRec}
    (hbj : T[j]? = some bj) : T.drop j = bj :: T.drop (j + 1) := by
  have hj : j < T.length := lt_length_of_getElem? hbj
  have hbg : (getElem T (j) hj) = bj := getElem_of_getElem? hbj
  rw [List.drop_eq_getElem_cons hj, hbg]

theorem remaining_adv {T : List BlockRec} {j r : Nat} {bj : BlockRec}
    (hbj : T[j]? = some bj) (hr : r + 1 < bj.entries.length) :
    remaining T j (r + 1) + 1 = remaining T j r := by
  simp only [remaining, List.getD, List.get?_eq_getElem?, hbj, Option.getD_some]
  omega

theorem remaining_cross {T : List BlockRec} {j r : Nat} {bj b1 : BlockRec}
    (hbj : T[j]? = some bj) (hb1 : T[j + 1]? = some b1)
    (hr : r + 1 = bj.entries.length) (hne : b1.entries ≠ []) :
    remaining T (j + 1) 0 + 1 = remaining T j r := by
  have hd : T.drop (j + 1) = b1 :: T.drop (j + 1 + 1) := drop_cons hb1
  simp only [remaining, List.getD, List.get?_eq_getElem?, hbj, hb1, Option.getD_some, hd,
    List.map_cons, List.sum_cons]
  have : 0 < b1.entries.length := List.length_pos.mpr hne
  omega

/-- `compactionIterator.Next` inside a block: returns the next record and
re-establishes the invariant one record further. -/
theorem cNext_adv {T : List BlockRec} (hwf : wfC T) {j r : Nat} {bj : BlockRec}
    {c : compactionIterator} (hinv : CInv T j r c)
    (hbj : T[j]? = some bj) (hr : r + 1 < bj.entries.length) :
    ∃ e c', compactionIterator.Next c = (some e, c') ∧
      c.bytesIterated ≤ c'.bytesIterated ∧ CInv T j (r + 1) c' := by
  rcases c with ⟨⟨lo, up, blo, bup, tb, tf, ⟨ie, ip, iv, ierr, io, inr, isz⟩,
    ⟨de, dp, dv, derr, dof, dnr, dsz⟩, dbh, er⟩, bi, po⟩
  obtain ⟨htb, hie, hip, hiv, herr, hderr, hlo, hup, hblo, hbup,
    ⟨bj2, hbj2, hde, hdo, hdn, hds, hdbh, hrlen⟩, hdp, hdv, hbi, hpo⟩ := hinv
  have hbb := hbj
  rw [hbj2] at hbb
  have hbjeq : bj = bj2 := ((Option.some.injEq _ _).mp hbb).symm
  subst hbjeq
  simp only at htb hie hip hiv herr hderr hlo hup hblo hbup hde hdo hdn hds hdbh hdp hdv hbi hpo
  replace htb := htb.symm
  replace hip := hip.symm
  replace hdp := hdp.symm
  subst htb hip hdp
  subst hie hiv herr hderr hlo hup hblo hbup hde hdo hdn hds hdbh hdv hbi hpo
  have hradv : bj.entries[r + 1]? = some ((getElem bj.entries (r + 1) hr)) :=
    List.getElem?_eq_getElem hr
  have hdec : decide (r + 1 < bj.entries.length) = true := decide_eq_true hr
  have hkey : compactionIterator.Next
      ⟨⟨none, none, none, none, T, tf, ⟨idxOf T, j, true, ierr, io, inr, isz⟩,
        ⟨bj.entries, r, true, none, bj.offsets, bj.numRestarts, bj.size⟩, bj.bh, none⟩,
       cum T j r, cum T j r⟩ =
      (some ((getElem bj.entries (r + 1) hr)),
       ⟨⟨none, none, none, none, T, tf, ⟨idxOf T, j, true, ierr, io, inr, isz⟩,
         ⟨bj.entries, r + 1, true, none, bj.offsets, bj.numRestarts, bj.size⟩, bj.bh, none⟩,
        w64 (cum T j r + u64sub (if bj.offsets.getD (r + 1) 0 + 4 * (bj.numRestarts + 1) = bj.size then
           w64 (bj.bh.Offset + bj.bh.Length + blockTrailerLen)
         else w64 (bj.bh.Offset + w64 (bj.offsets.getD (r + 1) 0 * bj.bh.Length) / bj.size)) (cum T j r)),
        (if bj.offsets.getD (r + 1) 0 + 4 * (bj.numRestarts + 1) = bj.size then
           w64 (bj.bh.Offset + bj.bh.Length + blockTrailerLen)
         else w64 (bj.bh.Offset + w64 (bj.offsets.getD (r + 1) 0 * bj.bh.Length) / bj.size))⟩) := by
    simp only [compactionIterator.Next, BIter.Next, Iterator.checkUpper, BIter.nextOffset,
      hradv, hdec, if_true, reduceIte]
  have hcur : (if bj.offsets.getD (r + 1) 0 + 4 * (bj.numRestarts + 1) = bj.size then
           w64 (bj.bh.Offset + bj.bh.Length + blockTrailerLen)
         else w64 (bj.bh.Offset + w64 (bj.offsets.getD (r + 1) 0 * bj.bh.Length) / bj.size)) = cum T j (r + 1) := charge_eq_cum hwf hbj hr
  have hmono2 : cum T j r ≤ cum T j (r + 1) := cum_mono_within hwf hbj hr
  have hclt : cum T j (r + 1) < 2 ^ 64 :=
    lt_of_le_of_lt (cum_le_sum hwf (lt_length_of_getElem? hbj)) hwf.2.2.2.2.2.2.2.2.2
  have hbytes : w64 (cum T j r + u64sub (if bj.offsets.getD (r + 1) 0 + 4 * (bj.numRestarts + 1) = bj.size then
           w64 (bj.bh.Offset + bj.bh.Length + blockTrailerLen)
         else w64 (bj.bh.Offset + w64 (bj.offsets.getD (r + 1) 0 * bj.bh.Length) / bj.size)) (cum T j r)) = cum T j (r + 1) := by
    rw [hcur, u64sub_eq hmono2 hclt, w64_eq (by omega)]
    omega
  refine ⟨_, _, hkey, ?_, ?_⟩
  · show cum T j r ≤ w64 (cum T j r + u64sub (if bj.offsets.getD (r + 1) 0 + 4 * (bj.numRestarts + 1) = bj.size then
           w64 (bj.bh.Offset + bj.bh.Length + blockTrailerLen)
         else w64 (bj.bh.Offset + w64 (bj.offsets.getD (r + 1) 0 * bj.bh.Length) / bj.size)) (cum T j r))
    rw [hbytes]
    exact hmono2
  · exact ⟨rfl, rfl, rfl, rfl, rfl, rfl, rfl, rfl, rfl, rfl,
      ⟨bj, hbj, rfl, rfl, rfl, rfl, rfl, hr⟩, rfl, rfl, hbytes, hcur⟩

/-- `compactionIterator.Next` at the table's last record: exhausts with the
counter unchanged. -/
theorem cNext_end {T : List BlockRec} {j r : Nat} {bj : BlockRec}
    {c : compactionIterator} (hinv : CInv T j r c)
    (hbj : T[j]? = some bj) (hr : r + 1 = bj.entries.length)
    (hj1 : j + 1 = T.length) :
    ∃ c', compactionIterator.Next c = (none, c') ∧
      c'.bytesIterated = cum T j r := by
  rcases c with ⟨⟨lo, up, blo, bup, tb, tf, ⟨ie, ip, iv, ierr, io, inr, isz⟩,
    ⟨de, dp, dv, derr, dof, dnr, dsz⟩, dbh, er⟩, bi, po⟩
  obtain ⟨htb, hie, hip, hiv, herr, hderr, hlo, hup, hblo, hbup,
    ⟨bj2, hbj2, hde, hdo, hdn, hds, hdbh, hrlen⟩, hdp, hdv, hbi, hpo⟩ := hinv
  have hbb := hbj
  rw [hbj2] at hbb
  have hbjeq : bj = bj2 := ((Option.some.injEq _ _).mp hbb).symm
  subst hbjeq
  simp only at htb hie hip hiv herr hderr hlo hup hblo hbup hde hdo hdn hds hdbh hdp hdv hbi hpo
  replace htb := htb.symm
  replace hip := hip.symm
  replace hdp := hdp.symm
  subst htb hip hdp
  subst hie hiv herr hderr hlo hup hblo hbup hde hdo hdn hds hdbh hdv hbi hpo
  have hrnone : bj.entries[r + 1]? = none := List.getElem?_eq_none (by omega)
  have hdec : decide (r + 1 < bj.entries.length) = false := decide_eq_false (by omega)
  have hinone : (idxOf T)[j + 1]? = none := by
    rw [idxOf_getElem?, List.getElem?_eq_none (by omega)]
    rfl
  have hdecj : decide (j + 1 < (idxOf T).length) = false := by
    rw [idxOf_length]
    exact decide_eq_false (by omega)
  refine ⟨⟨⟨none, none, none, none, T, tf, ⟨idxOf T, j + 1, false, ierr, io, inr, isz⟩,
    ⟨bj.entries, r + 1, false, none, bj.offsets, bj.numRestarts, bj.size⟩, bj.bh, none⟩,
    cum T j r, cum T j r⟩, ?_, rfl⟩
  simp only [compactionIterator.Next, BIter.Next, compactionIterator.nextLoop,
    hrnone, hdec, hinone, hdecj, if_true, reduceIte]
/-- `compactionIterator.Next` at a block's last record with blocks left:
crosses to the next block's first record and re-establishes the invariant. -/
theorem cNext_cross {T : List BlockRec} (hwf : wfC T) {j r : Nat} {bj b1 : BlockRec}
    {c : compactionIterator} (hinv : CInv T j r c)
    (hbj : T[j]? = some bj) (hb1 : T[j + 1]? = some b1)
    (hr : r + 1 = bj.entries.length) :
    ∃ e c', compactionIterator.Next c = (some e, c') ∧
      c.bytesIterated ≤ c'.bytesIterated ∧ CInv T (j + 1) 0 c' := by
  have hj1 : j + 1 < T.length := lt_length_of_getElem? hb1
  rcases c with ⟨⟨lo, up, blo, bup, tb, tf, ⟨ie, ip, iv, ierr, io, inr, isz⟩,
    ⟨de, dp, dv, derr, dof, dnr, dsz⟩, dbh, er⟩, bi, po⟩
  obtain ⟨htb, hie, hip, hiv, herr, hderr, hlo, hup, hblo, hbup,
    ⟨bj2, hbj2, hde, hdo, hdn, hds, hdbh, hrlen⟩, hdp, hdv, hbi, hpo⟩ := hinv
  have hbb := hbj
  rw [hbj2] at hbb
  have hbjeq : bj = bj2 := ((Option.some.injEq _ _).mp hbb).symm
  subst hbjeq
  simp only at htb hie hip hiv herr hderr hlo hup hblo hbup hde hdo hdn hds hdbh hdp hdv hbi hpo
  replace htb := htb.symm
  replace hip := hip.symm
  replace hdp := hdp.symm
  subst htb hip hdp
  subst hie hiv herr hderr hlo hup hblo hbup hde hdo hdn hds hdbh hdv hbi hpo
  have hrnone : bj.entries[r + 1]? = none := List.getElem?_eq_none (by omega)
  have hdec : decide (r + 1 < bj.entries.length) = false := decide_eq_false (by omega)
  have hidx1 : (idxOf T)[j + 1]? = some (b1.sep, j + 1) := by
    rw [idxOf_getElem?, hb1]
    rfl
  have hdecj : decide (j + 1 < (idxOf T).length) = true := by
    rw [idxOf_length]
    exact decide_eq_true hj1
  have h1ne : b1.entries ≠ [] := hwf.1.1 _ (List.getElem?_mem hb1)
  have h1len : 0 < b1.entries.length := List.length_pos.mpr h1ne
  have h1e : b1.entries[0]? = some ((getElem b1.entries (0) h1len)) :=
    List.getElem?_eq_getElem h1len
  have hkey : compactionIterator.Next
      ⟨⟨none, none, none, none, T, tf, ⟨idxOf T, j, true, ierr, io, inr, isz⟩,
        ⟨bj.entries, r, true, none, bj.offsets, bj.numRestarts, bj.size⟩, bj.bh, none⟩,
       cum T j r, cum T j r⟩ =
      (some ((getElem b1.entries (0) h1len)),
       ⟨⟨none, none, none, none, T, tf, ⟨idxOf T, j + 1, true, ierr, io, inr, isz⟩,
         ⟨b1.entries, 0, true, none, b1.offsets, b1.numRestarts, b1.size⟩, b1.bh, none⟩,
        w64 (cum T j r + u64sub (if b1.offsets.getD 0 0 + 4 * (b1.numRestarts + 1) = b1.size then
           w64 (b1.bh.Offset + b1.bh.Length + blockTrailerLen)
         else w64 (b1.bh.Offset + w64 (b1.offsets.getD 0 0 * b1.bh.Length) / b1.size)) (cum T j r)),
        (if b1.offsets.getD 0 0 + 4 * (b1.numRestarts + 1) = b1.size then
           w64 (b1.bh.Offset + b1.bh.Length + blockTrailerLen)
         else w64 (b1.bh.Offset + w64 (b1.offsets.getD 0 0 * b1.bh.Length) / b1.size))⟩) := by
    simp only [compactionIterator.Next, BIter.Next, compactionIterator.nextLoop,
      Iterator.loadBlock, BIter.Key, Iterator.initBounds, BIter.First, Iterator.checkUpper,
      BIter.nextOffset, hrnone, hdec, hidx1, hdecj, hb1, h1e, if_true, reduceIte]
  have hcur : (if b1.offsets.getD 0 0 + 4 * (b1.numRestarts + 1) = b1.size then
           w64 (b1.bh.Offset + b1.bh.Length + blockTrailerLen)
         else w64 (b1.bh.Offset + w64 (b1.offsets.getD 0 0 * b1.bh.Length) / b1.size)) = cum T (j + 1) 0 := charge_eq_cum hwf hb1 h1len
  have hmono2 : cum T j r ≤ cum T (j + 1) 0 := cum_mono_cross hwf hbj hb1 hr
  have hclt : cum T (j + 1) 0 < 2 ^ 64 :=
    lt_of_le_of_lt (cum_le_sum hwf hj1) hwf.2.2.2.2.2.2.2.2.2
  have hbytes : w64 (cum T j r + u64sub (if b1.offsets.getD 0 0 + 4 * (b1.numRestarts + 1) = b1.size then
           w64 (b1.bh.Offset + b1.bh.Length + blockTrailerLen)
         else w64 (b1.bh.Offset + w64 (b1.offsets.getD 0 0 * b1.bh.Length) / b1.size)) (cum T j r)) = cum T (j + 1) 0 := by
    rw [hcur, u64sub_eq hmono2 hclt, w64_eq (by omega)]
    omega
  refine ⟨_, _, hkey, ?_, ?_⟩
  · show cum T j r ≤ w64 (cum T j r + u64sub (if b1.offsets.getD 0 0 + 4 * (b1.numRestarts + 1) = b1.size then
           w64 (b1.bh.Offset + b1.bh.Length + blockTrailerLen)
         else w64 (b1.bh.Offset + w64 (b1.offsets.getD 0 0 * b1.bh.Length) / b1.size)) (cum T j r))
    rw [hbytes]
    exact hmono2
  · exact ⟨rfl, rfl, rfl, rfl, rfl, rfl, rfl, rfl, rfl, rfl,
      ⟨b1, hb1, rfl, rfl, rfl, rfl, rfl, h1len⟩, rfl, rfl, hbytes, hcur⟩

/-- Repeated `Next` from an invariant state: the final counter equals the
table's total on-disk extent and the recorded trace is monotone. -/
theorem run_spec : ∀ (fuel : Nat) {T : List BlockRec}, wfC T → ∀ {j r : Nat}
    {c : compactionIterator}, CInv T j r c → remaining T j r < fuel →
    (compactionIterator.run fuel c).2.bytesIterated = sumBlocks T ∧
      List.Chain' (· ≤ ·) (c.bytesIterated :: (compactionIterator.run fuel c).1) := by
  intro fuel
  induction fuel with
  | zero =>
    intro T hwf j r c hinv hfuel
    omega
  | succ f ih =>
    intro T hwf j r c hinv hfuel
    obtain ⟨bj, hbj, -, -, -, -, -, hrlen⟩ := hinv.2.2.2.2.2.2.2.2.2.2.1
    by_cases hlast : r + 1 = bj.entries.length
    · by_cases hj1 : j + 1 = T.length
      · obtain ⟨c', hnext, hbytes⟩ := cNext_end hinv hbj hlast hj1
        simp only [compactionIterator.run, hnext]
        refine ⟨?_, List.chain'_singleton _⟩
        rw [hbytes]
        exact cum_last hwf hbj hlast hj1
      · have hj1' : j + 1 < T.length := by
          have := lt_length_of_getElem? hbj
          omega
        obtain ⟨b1, hb1⟩ : ∃ b1, T[j + 1]? = some b1 :=
          ⟨(getElem T (j + 1) hj1'), List.getElem?_eq_getElem hj1'⟩
        obtain ⟨e, c', hnext, hle, hinv'⟩ := cNext_cross hwf hinv hbj hb1 hlast
        have hb1ne : b1.entries ≠ [] := hwf.1.1 _ (List.getElem?_mem hb1)
        have hrem := remaining_cross hbj hb1 hlast hb1ne
        have hres := ih hwf hinv' (by omega)
        simp only [compactionIterator.run, hnext]
        exact ⟨hres.1, List.chain'_cons.mpr ⟨hle, hres.2⟩⟩
    · have hlt : r + 1 < bj.entries.length := by omega
      obtain ⟨e, c', hnext, hle, hinv'⟩ := cNext_adv hwf hinv hbj hlt
      have hrem := remaining_adv hbj hlt
      have hres := ih hwf hinv' (by omega)
      simp only [compactionIterator.run, hnext]
      exact ⟨hres.1, List.chain'_cons.mpr ⟨hle, hres.2⟩⟩

/-- The records strictly after the first position are fewer than the
table's record count. -/
theorem remaining_lt_allEntries {T : List BlockRec} (hT : T ≠ []) :
    remaining T 0 0 < (allEntries T).length + 1 := by
  rcases T with _ | ⟨b0, t⟩
  · cases hT rfl
  · simp only [remaining, allEntries_length, List.drop_succ_cons, List.drop_zero,
      List.getD_cons_zero, List.map_cons, List.sum_cons]
    omega

/-- C7: over a complete compaction pass (`First(); Next()*` until
exhaustion) on a well-formed table, the shared `bytesIterated` counter is
non-decreasing across the returned records, and its final value is exactly
the sum over the data blocks of `handle.Length + 5` — each block's on-disk
payload plus its 5-byte trailer.  The proof tracks the charge through the
last-record test `nextOffset + 4*(numRestarts+1) = size` of
`compactionIterator.First`/`Next`. -/
theorem compaction_bytesIterated {T : List BlockRec} (hwf : wfC T) :
    (compactionPass T).2.bytesIterated = sumBlocks T ∧
      List.Chain' (· ≤ ·) ((compactionPass T).1) := by
  obtain ⟨⟨e, hfe⟩, hinv0⟩ := cFirst_spec hwf
  have hrem : remaining T 0 0 < (allEntries T).length + 1 :=
    remaining_lt_allEntries hwf.2.1
  have hrun := run_spec ((allEntries T).length + 1) hwf hinv0 hrem
  simp only [compactionPass, hfe]
  exact ⟨hrun.1, hrun.2⟩

theorem compaction_bytesIterated_witness :
    wfC T3c ∧
      ((compactionPass T3c).2.bytesIterated = sumBlocks T3c ∧
        List.Chain' (· ≤ ·) ((compactionPass T3c).1)) :=
  ⟨by decide, compaction_bytesIterated (by decide)⟩

end sstable
